import Mathlib

/-!
# Verification of the `eris-go` encoder/decoder core

A shallow embedding of the ERIS (Encoding for Robust Immutable Storage)
implementation in this repository, together with proofs about it.

Byte strings are modelled as `List Nat` (each element a byte value).
Go's stateful iterators are modelled by explicit state passing; fallible
code returns a `GoResult`, whose `panicked` constructor models a Go
runtime panic (as opposed to an ordinary returned `error`).

The cryptographic primitives (Blake2b-256 and ChaCha20, consumed from
`golang.org/x/crypto`, external to the repository) are modelled as
parameters: a `Prims` structure carries the keyed hash, the unkeyed hash
and the ChaCha20 keystream, and the encoder/decoder definitions below
are faithful to the repository source given any instantiation.
-/

/-- Byte strings: each element is one byte value. -/
abbrev Bytes := List Nat

/-- The zero 32-byte reference (`Reference.isZero` in the source tests
each of the 32 bytes against 0). -/
def zeroRef : Bytes := List.replicate 32 0

/-- `ReferenceKeyPair` from the source: a block reference (32-byte
Blake2b hash of the encrypted block) and the ChaCha20 key for it. -/
structure ReferenceKeyPair where
  Reference : Bytes
  Key : Bytes
deriving DecidableEq, Repr

/-- `ReadCapability` from the source: block size, tree level, and the
root reference-key pair. `Level` is a Go `int`, but every value the
repository constructs or unmarshals is non-negative, so it is modelled
as `Nat`. -/
structure ReadCapability where
  BlockSize : Nat
  Level : Nat
  Root : ReferenceKeyPair
deriving DecidableEq, Repr

/-- The error values of the package (`ErrInvalid...` variables), plus
one constructor per distinct `fmt.Errorf` failure of the binary/URN
codecs, plus `fetchFailed` standing for an arbitrary error returned by
a caller-supplied fetch function. -/
inductive ErisError where
  | invalidBlockSize
  | invalidBlock
  | invalidPadding
  | invalidKey
  | fetchFailed
  | dataTooShort
  | unsupportedBlockSize
  | levelTooLarge
  | badPrefix
  | corruptBase32
deriving DecidableEq, Repr

/-- Outcome of running a piece of Go code: a normal return value, a
returned `error`, or a runtime panic. -/
inductive GoResult (α : Type) where
  | ok (val : α)
  | err (e : ErisError)
  | panicked
deriving DecidableEq, Repr

/-- Sequencing of fallible Go code (errors and panics propagate). -/
def GoResult.bind {α β : Type} : GoResult α → (α → GoResult β) → GoResult β
  | .ok a, f => f a
  | .err e, _ => .err e
  | .panicked, _ => .panicked

/-- The cryptographic primitives consumed from `golang.org/x/crypto`
(external to this repository): `blake2b.New256(key)` followed by a
write and sum, `blake2b.Sum256`, and the ChaCha20 keystream byte at a
given position for a given key and 12-byte nonce (with initial counter
0, as the source always uses). -/
structure Prims where
  keyedHash : Bytes → Bytes → Bytes
  hash : Bytes → Bytes
  ks : Bytes → Bytes → Nat → Nat

/-- `cipher.XORKeyStream(dst, src)`: XOR the data with the keystream
bytes starting at position `i`. -/
def xorKeystream (f : Nat → Nat) : Nat → Bytes → Bytes
  | _, [] => []
  | i, b :: rest => (b ^^^ f i) :: xorKeystream f (i + 1) rest

/-- Hash outputs of the real primitives are exactly 32 bytes; the
keyed-hash check `len(keySlice) != KeySize` in `encryptLeafNode` and
the use of `blake2b.Sum256` (a 32-byte array) make the source rely on
this. -/
def GoodPrims (P : Prims) : Prop :=
  (∀ k m, (P.keyedHash k m).length = 32) ∧ (∀ m, (P.hash m).length = 32)

/-- `appendPadInput` (encode.go): ISO/IEC 7816-4 pad the buffer to
`blockSize`. The source panics when `len(buf) > blockSize` and returns
the buffer unchanged when `len(buf) == blockSize`; both cases are the
`≥` branch here (the panic case is unreachable from the splitter, which
only pads strictly partial buffers). -/
def appendPadInput (buf : Bytes) (blockSize : Nat) : Bytes :=
  if blockSize ≤ buf.length then buf
  else buf ++ 0x80 :: List.replicate (blockSize - buf.length - 1) 0

/-- `appendPadWithZeroes` (encode.go): zero-fill the buffer up to
`length` (the source panics when the buffer is longer, a case no call
site reaches). -/
def appendPadWithZeroes (buf : Bytes) (length : Nat) : Bytes :=
  if length ≤ buf.length then buf
  else buf ++ List.replicate (length - buf.length) 0

/-- The scan loop of `removePadding` (run on the reversed buffer):
read up to `fuel` bytes; a 0x80 ends the padding and everything before
it (here: the rest of the reversed buffer, reversed back) is returned;
a 0x00 continues; anything else is invalid padding, as is running out
of fuel. -/
def unpadRev : Nat → Bytes → GoResult Bytes
  | 0, _ => .err .invalidPadding
  | _ + 1, [] => .err .invalidPadding
  | fuel + 1, b :: rest =>
    if b = 0x80 then .ok rest.reverse
    else if b = 0 then unpadRev fuel rest
    else .err .invalidPadding

/-- `removePadding` (source): fail if the buffer is shorter than
`blockSize`, else scan at most `blockSize` bytes from the right end. -/
def removePadding (buf : Bytes) (blockSize : Nat) : GoResult Bytes :=
  if buf.length < blockSize then .err .invalidPadding
  else unpadRev blockSize buf.reverse

/-- The loop of the splitter, with an explicit structural bound on the
number of reads: each full-block read consumes `bs ≥ 1` bytes, so a
bound of the content length suffices and the exhausted-bound branch is
then unreachable (it returns the same padded tail so that the bound is
irrelevant as long as it is at least the content length). -/
def splitGo (bs : Nat) : Nat → Bytes → List Bytes
  | 0, content => [appendPadInput content bs]
  | fuel + 1, content =>
    if 0 < bs ∧ bs ≤ content.length then
      content.take bs :: splitGo bs fuel (content.drop bs)
    else [appendPadInput content bs]

/-- The sequence of blocks produced by the splitter (`splitter.Next`
run to exhaustion, equivalently `splitContent`): full blocks of the
content in order, then one final padded block (covering both the
partial-fill and the empty-source cases of the source, which both
evaluate `appendPadInput` on what remains). -/
def splitBlocks (content : Bytes) (bs : Nat) : List Bytes :=
  splitGo bs content.length content

/-- `encryptLeafNode` (source): key = keyed Blake2b over the node with
the convergence secret; encrypt with ChaCha20 under a 12-zero-byte
nonce; reference = unkeyed Blake2b of the ciphertext. -/
def encryptLeafNode (P : Prims) (node : Bytes) (secret : Bytes) :
    Bytes × ReferenceKeyPair :=
  let key := P.keyedHash secret node
  let block := xorKeystream (P.ks key (List.replicate 12 0)) 0 node
  (block, ⟨P.hash block, key⟩)

/-- `encryptInternalNode` (source): key = unkeyed Blake2b over the
node; nonce = level byte followed by 11 zero bytes; reference = unkeyed
Blake2b of the ciphertext. (The source takes and ignores the
convergence secret, panics for level ≤ 0 and, under `extraChecks`, for
level > 255; call sites only pass levels ≥ 1.) -/
def encryptInternalNode (P : Prims) (node : Bytes) (level : Nat) :
    Bytes × ReferenceKeyPair :=
  let key := P.hash node
  let block := xorKeystream (P.ks key ((level % 256) :: List.replicate 11 0)) 0 node
  (block, ⟨P.hash block, key⟩)

/-- `arity` (source): `blockSize / 64` (the source panics when the
block size is not a multiple of 64; the supported sizes are). -/
def arity (blockSize : Nat) : Nat := blockSize / 64

/-- The chunking loop with an explicit structural bound (each step
consumes `n ≥ 1` list entries, so a bound of the list length suffices;
the exhausted branch is unreachable under that bound). -/
def chunkGo {α : Type} (n : Nat) : Nat → List α → List (List α)
  | _, [] => []
  | 0, a :: t => [a :: t]
  | fuel + 1, a :: t =>
    if 0 < n then (a :: t).take n :: chunkGo n fuel ((a :: t).drop n)
    else [a :: t]

/-- Take-at-most-`n` chunking, as in the loop of
`constructInternalNodes`. -/
def chunkList {α : Type} (n : Nat) (l : List α) : List (List α) :=
  chunkGo n l.length l

/-- Concatenation of each pair as `Reference || Key`, the inner loop of
`constructInternalNodes`. -/
def serializePairs (ps : List ReferenceKeyPair) : Bytes :=
  (ps.map (fun p => p.Reference ++ p.Key)).flatten

/-- `constructInternalNodes` (source): group the pair list into chunks
of at most `arity`, serialize each and zero-fill to the block size. -/
def constructInternalNodes (pairs : List ReferenceKeyPair) (bs : Nat) :
    List Bytes :=
  (chunkList (arity bs) pairs).map
    (fun c => appendPadWithZeroes (serializePairs c) bs)

/-- The folding loop of `Encode` (encode.go): while more than one
reference-key pair remains, increment the level, build the internal
nodes for the current pair list, and encrypt them into the next pair
list, collecting every encrypted block. `fuel` bounds the number of
levels; `none` models non-termination/never finishing (the source
would loop forever only for arity < 2, which no supported block size
produces). The empty pair list (on which the source panics via
`extraChecks`) also gives `none`. -/
def foldPairs (P : Prims) (bs : Nat) :
    Nat → Nat → List ReferenceKeyPair →
    Option (List (Bytes × ReferenceKeyPair) × Nat × ReferenceKeyPair)
  | _, level, [p] => some ([], level, p)
  | 0, _, _ => none
  | _, _, [] => none
  | fuel + 1, level, pairs =>
    let encs := (constructInternalNodes pairs bs).map
      (fun n => encryptInternalNode P n (level + 1))
    (foldPairs P bs fuel (level + 1) (encs.map Prod.snd)).map
      (fun r => (encs ++ r.1, r.2))

/-- One-shot `Encode` (encode.go): split the content into padded leaf
blocks, encrypt each leaf, then fold the pair list into internal-node
layers until a single root pair remains. Returns every produced block
paired with its reference (the reference of a block is the `Reference`
field of the pair produced alongside it), plus the read capability.
Note this function appends every block unconditionally: it does not
deduplicate (the source comments `// TODO: set`). -/
def Encode (P : Prims) (content : Bytes) (secret : Bytes) (bs : Nat) :
    Option (List (Bytes × ReferenceKeyPair) × ReadCapability) :=
  let leafEncs := (splitBlocks content bs).map (fun l => encryptLeafNode P l secret)
  let pairs := leafEncs.map Prod.snd
  (foldPairs P bs pairs.length 0 pairs).map
    (fun r => (leafEncs ++ r.1, ⟨bs, r.2.1, r.2.2⟩))

/-- The blocks emitted by one-shot `Encode` (its `[][]byte` result). -/
def encodeBlocks (P : Prims) (content : Bytes) (secret : Bytes) (bs : Nat) :
    Option (List Bytes) :=
  (Encode P content secret bs).map (fun r => r.1.map Prod.fst)

/-- A fetch function, `FetchFunc` in the source: given a reference,
return the block bytes or an error (the context and scratch-buffer
parameters have no observable effect). -/
abbrev FetchFunc := Bytes → GoResult Bytes

/-- `dereferenceNode` (source): fetch the block, check its length is
exactly the block size, check the unkeyed Blake2b hash of the
ciphertext equals the requested reference, then decrypt in place with
ChaCha20 under the pair's key and the nonce `byte(level) || 0^11`. -/
def dereferenceNode (P : Prims) (fetch : FetchFunc)
    (ref : ReferenceKeyPair) (level : Nat) (blockSize : Nat) :
    GoResult Bytes :=
  (fetch ref.Reference).bind fun block =>
    if block.length ≠ blockSize then .err .invalidBlockSize
    else if P.hash block ≠ ref.Reference then .err .invalidBlock
    else .ok (xorKeystream
      (P.ks ref.Key ((level % 256) :: List.replicate 11 0)) 0 block)

/-- The loop of `decodeInternalNode` (source), consuming the node data
64 bytes at a time: read a 32-byte reference; an all-zero reference
ends the list, and every remaining byte must then be zero; otherwise
read the 32-byte key and continue. Go's slice expressions
`data[i:i+32]` and `data[i+32:i+64]` panic when fewer bytes remain
(possible only when the block size is not a multiple of 64). -/
def decodeNodeGo : Nat → Bytes → GoResult (List ReferenceKeyPair)
  | _, [] => .ok []
  | 0, _ :: _ => .panicked
  | fuel + 1, a :: t =>
    if (a :: t).length < 32 then .panicked
    else if (a :: t).take 32 = zeroRef then
      if ((a :: t).drop 32).all (· = 0) then .ok [] else .err .invalidPadding
    else if (a :: t).length < 64 then .panicked
    else
      (decodeNodeGo fuel ((a :: t).drop 64)).bind fun rest =>
        .ok (⟨(a :: t).take 32, ((a :: t).drop 32).take 32⟩ :: rest)

/-- The 64-byte-stride loop with the bound instantiated (each step
consumes 64 bytes, so a bound of the data length suffices and the
exhausted branch is unreachable). -/
def decodeNodeLoop (data : Bytes) : GoResult (List ReferenceKeyPair) :=
  decodeNodeGo data.length data

/-- `decodeInternalNode` (source): under `extraChecks` the source
panics unless the data has exactly the block size, then runs the
64-byte-stride loop. -/
def decodeInternalNode (data : Bytes) (blockSize : Nat) :
    GoResult (List ReferenceKeyPair) :=
  if data.length ≠ blockSize then .panicked
  else decodeNodeLoop data

/-- The `for _, ref := range refs` loop of `DecodeRecursive`: decode
each child (with the function `f`, below always the next level down)
and append the outputs. -/
def decodeChildrenGo (f : ReferenceKeyPair → GoResult Bytes) :
    List ReferenceKeyPair → GoResult Bytes
  | [] => .ok []
  | p :: rest =>
    (f p).bind fun child =>
      (decodeChildrenGo f rest).bind fun out =>
        .ok (child ++ out)

/-- The inner recursion of `DecodeRecursive` (source): dereference the
node at the given level; a level-0 node is returned as content, a
higher node is decoded into its child pairs whose decodings are
concatenated in order. -/
def decodeRec (P : Prims) (fetch : FetchFunc) (bs : Nat) :
    Nat → ReferenceKeyPair → GoResult Bytes
  | 0, p => (dereferenceNode P fetch p 0 bs).bind fun node => .ok node
  | l + 1, p =>
    (dereferenceNode P fetch p (l + 1) bs).bind fun node =>
      (decodeInternalNode node bs).bind fun refs =>
        decodeChildrenGo (fun q => decodeRec P fetch bs l q) refs

/-- `DecodeRecursive` (source): for level > 0 first perform Verify-Key
(dereference the root at the capability's level and compare the
unkeyed Blake2b hash of the decrypted plaintext with the root key),
then recursively decode from the root and unpad the concatenated
result. -/
def DecodeRecursive (P : Prims) (fetch : FetchFunc) (rc : ReadCapability) :
    GoResult Bytes :=
  let verify : GoResult Unit :=
    if 0 < rc.Level then
      (dereferenceNode P fetch rc.Root rc.Level rc.BlockSize).bind fun node =>
        if P.hash node ≠ rc.Root.Key then .err .invalidKey else .ok ()
    else .ok ()
  verify.bind fun _ =>
    (decodeRec P fetch rc.BlockSize rc.Level rc.Root).bind fun padded =>
      removePadding padded rc.BlockSize

/-- A `decodeNode` stack frame of the streaming `Decoder`: a pending
reference-key pair and its level. -/
structure DecodeFrame where
  ref : ReferenceKeyPair
  level : Nat
deriving DecidableEq, Repr

/-- The mutable fields of the streaming `Decoder` (the fetch function
and read capability are passed separately; the scratch buffer has no
observable effect). -/
structure DecoderState where
  rc : ReadCapability
  err : Option ErisError
  block : Bytes
  stack : List DecodeFrame
  didInit : Bool
deriving Repr

/-- `NewDecoder` (source): fresh state, no error, empty stack, not yet
initialized. -/
def NewDecoder (rc : ReadCapability) : DecoderState :=
  ⟨rc, none, [], [], false⟩

/-- Push child pairs onto the stack in reverse order at the given
level — `Decoder.decodeInternalNode` in the source. -/
def pushChildren (stack : List DecodeFrame) (refs : List ReferenceKeyPair)
    (atLevel : Nat) : List DecodeFrame :=
  stack ++ (refs.reverse.map (fun r => ⟨r, atLevel⟩))

/-- The `for len(d.stack) > 0` loop of `Decoder.Next`: pop a frame,
dereference and decrypt it; a leaf is published (the final one
unpadded, and an empty unpadded final leaf ends the stream), an
internal node has its children pushed and the loop continues. `fuel`
bounds the internal-node expansions within one advance (the source
loop always terminates because levels strictly decrease; theorems
below quantify over any sufficient fuel). -/
def decoderLoop (P : Prims) (fetch : FetchFunc) :
    Nat → DecoderState → Bool × DecoderState
  | _, d@⟨_, _, _, [], _⟩ => (false, d)
  | fuel, d@⟨rc, e, blk, curr :: stackRest, ini⟩ =>
    let isFinal := stackRest.isEmpty
    match dereferenceNode P fetch curr.ref curr.level rc.BlockSize with
    | .err er => (false, ⟨rc, some er, blk, stackRest, ini⟩)
    | .panicked => (false, ⟨rc, some .invalidBlock, blk, stackRest, ini⟩)
    | .ok buf =>
      match curr.level with
      | 0 =>
        if isFinal then
          match removePadding buf rc.BlockSize with
          | .err er => (false, ⟨rc, some er, blk, stackRest, ini⟩)
          | .panicked => (false, ⟨rc, some .invalidPadding, blk, stackRest, ini⟩)
          | .ok unpadded =>
            if unpadded.isEmpty then (false, ⟨rc, e, unpadded, stackRest, ini⟩)
            else (true, ⟨rc, e, unpadded, stackRest, ini⟩)
        else (true, ⟨rc, e, buf, stackRest, ini⟩)
      | l + 1 =>
        match decodeInternalNode buf rc.BlockSize with
        | .err er => (false, ⟨rc, some er, blk, stackRest, ini⟩)
        | .panicked => (false, ⟨rc, some .invalidPadding, blk, stackRest, ini⟩)
        | .ok refs =>
          match fuel with
          | 0 => (false, ⟨rc, e, blk, pushChildren stackRest refs l, ini⟩)
          | fuel + 1 =>
            decoderLoop P fetch fuel ⟨rc, e, blk, pushChildren stackRest refs l, ini⟩

/-- `Decoder.Next` (source): return false immediately on a sticky
error; on the first call initialize — for level > 0 dereference the
root, verify the key hash (mismatch ⇒ `ErrInvalidKey`) and push the
root's children, for level 0 push the root itself — then run the
stack loop. -/
def decoderNext (P : Prims) (fetch : FetchFunc) (fuel : Nat)
    (d : DecoderState) : Bool × DecoderState :=
  match d.err with
  | some _ => (false, d)
  | none =>
    if d.didInit then decoderLoop P fetch fuel d
    else
      match d.rc.Level with
      | l + 1 =>
        match dereferenceNode P fetch d.rc.Root d.rc.Level d.rc.BlockSize with
        | .err er => (false, { d with err := some er })
        | .panicked => (false, { d with err := some .invalidBlock })
        | .ok node =>
          if P.hash node ≠ d.rc.Root.Key then
            (false, { d with err := some .invalidKey })
          else
            match decodeInternalNode node d.rc.BlockSize with
            | .err er => (false, { d with err := some er })
            | .panicked => (false, { d with err := some .invalidPadding })
            | .ok refs =>
              decoderLoop P fetch fuel
                { d with stack := pushChildren d.stack refs l, didInit := true }
      | 0 =>
        decoderLoop P fetch fuel
          { d with stack := d.stack ++ [⟨d.rc.Root, 0⟩], didInit := true }

/-- State threaded through the streaming `Encoder`: the set of
already-seen references (`blocks map[Reference]bool` in the source,
modelled as a list with membership) and the running pair list. -/
structure EncoderAcc where
  seen : List Bytes
  emitted : List (Bytes × ReferenceKeyPair)
  pairs : List ReferenceKeyPair
deriving Repr

/-- `Encoder.maybeEmitBlock` combined with the surrounding loop body:
the reference-key pair is appended to the pair list unconditionally;
the block is emitted only when its reference has not been seen, in
which case the reference is added to the seen set. -/
def emitStep (acc : EncoderAcc) (bp : Bytes × ReferenceKeyPair) : EncoderAcc :=
  if bp.2.Reference ∈ acc.seen then
    { acc with pairs := acc.pairs ++ [bp.2] }
  else
    { acc with
      seen := bp.2.Reference :: acc.seen
      emitted := acc.emitted ++ [bp]
      pairs := acc.pairs ++ [bp.2] }

/-- `Encoder.nextContent` run to completion (state 0): encrypt each
split block in turn, deduplicating emissions. -/
def streamLeaves (P : Prims) (secret : Bytes) (leaves : List Bytes)
    (acc : EncoderAcc) : EncoderAcc :=
  leaves.foldl (fun a leaf => emitStep a (encryptLeafNode P leaf secret)) acc

/-- One level of `Encoder.nextInternalNodes`: encrypt every internal
node of the level, deduplicating emissions; the pair list was cleared
before this level. -/
def streamLevel (P : Prims) (nodes : List Bytes) (level : Nat)
    (seen : List Bytes) (emitted : List (Bytes × ReferenceKeyPair)) : EncoderAcc :=
  nodes.foldl (fun a node => emitStep a (encryptInternalNode P node level))
    ⟨seen, emitted, []⟩

/-- The level-building loop of the streaming `Encoder` (state 1,
re-entered until a single pair remains), with the same fuel convention
as `foldPairs`. -/
def streamFold (P : Prims) (bs : Nat) :
    Nat → Nat → EncoderAcc →
    Option (List (Bytes × ReferenceKeyPair) × Nat × ReferenceKeyPair)
  | fuel, level, acc =>
    match acc.pairs with
    | [p] => some (acc.emitted, level, p)
    | [] => none
    | _ :: _ :: _ =>
      match fuel with
      | 0 => none
      | fuel + 1 =>
        streamFold P bs fuel (level + 1)
          (streamLevel P (constructInternalNodes acc.pairs bs) (level + 1)
            acc.seen acc.emitted)

/-- The streaming `Encoder` (NewEncoder / Next / Block / Reference /
Capability) run to completion: the sequence of emitted
(block, reference-key pair) values in order, and the final read
capability. -/
def EncodeStream (P : Prims) (content : Bytes) (secret : Bytes) (bs : Nat) :
    Option (List (Bytes × ReferenceKeyPair) × ReadCapability) :=
  let acc := streamLeaves P secret (splitBlocks content bs) ⟨[], [], []⟩
  (streamFold P bs acc.pairs.length 0 acc).map
    (fun r => (r.1, ⟨bs, r.2.1, r.2.2⟩))

/-- Specification of deduplication: keep only the first block bearing
each reference. -/
def dedupFirst (seen : List Bytes) :
    List (Bytes × ReferenceKeyPair) → List (Bytes × ReferenceKeyPair)
  | [] => []
  | bp :: rest =>
    if bp.2.Reference ∈ seen then dedupFirst seen rest
    else bp :: dedupFirst (bp.2.Reference :: seen) rest

/-- The RFC 4648 base32 alphabet `A..Z 2..7` as character codes, as
used by `base32.StdEncoding`. -/
def b32alphabet : List Nat :=
  [65, 66, 67, 68, 69, 70, 71, 72, 73, 74, 75, 76, 77, 78, 79, 80,
   81, 82, 83, 84, 85, 86, 87, 88, 89, 90, 50, 51, 52, 53, 54, 55]

/-- The eight bits of a byte, most significant first. -/
def byteToBits (b : Nat) : List Bool :=
  [b.testBit 7, b.testBit 6, b.testBit 5, b.testBit 4,
   b.testBit 3, b.testBit 2, b.testBit 1, b.testBit 0]

/-- A byte string as a bit string. -/
def bytesToBits (l : Bytes) : List Bool := (l.map byteToBits).flatten

/-- Big-endian value of a bit string. -/
def bitsToNat (bits : List Bool) : Nat :=
  bits.foldl (fun acc b => 2 * acc + (if b then 1 else 0)) 0

/-- The five bits of a base32 digit, most significant first. -/
def natToBits5 (v : Nat) : List Bool :=
  [v.testBit 4, v.testBit 3, v.testBit 2, v.testBit 1, v.testBit 0]

/-- Modelled from the external primitive `encoding/base32` (Go
standard library, not part of this repository), unpadded encoding as
used via `base32.StdEncoding.WithPadding(base32.NoPadding)`: the bit
string of the input, zero-extended to a multiple of five bits, read
off as base32 digits. -/
def base32Encode (data : Bytes) : List Nat :=
  let bits := bytesToBits data
  let padded := bits ++ List.replicate ((5 - bits.length % 5) % 5) false
  (chunkList 5 padded).map (fun c => b32alphabet.getD (bitsToNat c) 0)

/-- Modelled from the external primitive `encoding/base32` (Go
standard library, not part of this repository), unpadded decoding:
every character must be an alphabet digit, the length must not be
≡ 1, 3 or 6 (mod 8), and the digits' bit string is truncated to whole
bytes. -/
def base32Decode (s : List Nat) : GoResult Bytes :=
  if s.length % 8 = 1 ∨ s.length % 8 = 3 ∨ s.length % 8 = 6 then
    .err .corruptBase32
  else
    match s.mapM (fun c => b32alphabet.indexOf? c) with
    | none => .err .corruptBase32
    | some vals =>
      let bits := (vals.map natToBits5).flatten
      .ok ((chunkList 8 (bits.take (8 * (bits.length / 8)))).map bitsToNat)

/-- `ReadCapability.AppendBinary`/`MarshalBinary` (source): one byte
log₂(block size) — only 1024 (0x0a) and 32768 (0x0f) are accepted —
one level byte (levels above 255 are rejected), then the 32-byte root
reference and 32-byte root key. -/
def MarshalBinary (rc : ReadCapability) : GoResult Bytes :=
  (match rc.BlockSize with
    | 1024 => GoResult.ok 0x0a
    | 32768 => GoResult.ok 0x0f
    | _ => GoResult.err .unsupportedBlockSize).bind fun bsByte =>
  if 255 < rc.Level then .err .levelTooLarge
  else .ok (bsByte :: rc.Level :: (rc.Root.Reference ++ rc.Root.Key))

/-- `ReadCapability.UnmarshalBinary` (source): require at least 66
bytes; the first byte is log₂(block size) (`1 << data[0]` in Go,
which agrees with `2 ^ b` on all byte values as far as the subsequent
{1024, 32768} test can tell); the second byte is the level; the root
reference and key are the next two 32-byte runs. -/
def UnmarshalBinary (data : Bytes) : GoResult ReadCapability :=
  if data.length < 66 then .err .dataTooShort
  else
    let bsv := 2 ^ data.getD 0 0
    if bsv ≠ 1024 ∧ bsv ≠ 32768 then .err .unsupportedBlockSize
    else .ok ⟨bsv, data.getD 1 0, ⟨(data.drop 2).take 32, (data.drop 34).take 32⟩⟩

/-- The byte string `urn:eris:`. -/
def urnPrefix : Bytes := "urn:eris:".data.map Char.toNat

/-- `ReadCapability.URN` (source): the prefix `urn:eris:` followed by
the unpadded base32 encoding of the binary form. -/
def URN (rc : ReadCapability) : GoResult Bytes :=
  (MarshalBinary rc).bind fun data => .ok (urnPrefix ++ base32Encode data)

/-- `ParseReadCapabilityURN` (source). The source slices `urn[:9]`
before any length test, so a string shorter than nine bytes makes the
Go runtime panic (`panicked` here) rather than produce an error. -/
def ParseReadCapabilityURN (s : Bytes) : GoResult ReadCapability :=
  if s.length < 9 then .panicked
  else if s.take 9 ≠ urnPrefix then .err .badPrefix
  else (base32Decode (s.drop 9)).bind UnmarshalBinary

/-- The fetch function used by the test-vector harness and assumed by
claim C1: look the reference up in the emitted block set (the block
whose unkeyed Blake2b hash is the reference). -/
def lookupFetch (P : Prims) (blocks : List Bytes) : FetchFunc := fun r =>
  match blocks.find? (fun b => P.hash b == r) with
  | some b => .ok b
  | none => .err .fetchFailed

/-- One byte summarizing a message, used by the witness "hash": a
polynomial fold of the bytes seeded with the length. -/
def mockByte (m : Bytes) : Nat :=
  m.foldl (fun a b => (a * 131 + b + 1) % 256) (m.length % 256)

/-- A simple concrete 32-byte "hash" used to instantiate the abstract
primitives in witnesses. -/
def mockHash (m : Bytes) : Bytes := List.replicate 32 (mockByte m)

/-- Concrete primitives for witnesses: both hashes are `mockHash` and
the keystream is identically zero (so "encryption" is the identity). -/
def mockPrims : Prims := ⟨fun _ m => mockHash m, mockHash, fun _ _ _ => 0⟩

/-- The evolving seen-reference set after processing a list of
(block, pair) emissions, mirroring `maybeEmitBlock`'s updates: used to
specify deduplication across phase boundaries. -/
def seenAfter (seen : List Bytes) (l : List (Bytes × ReferenceKeyPair)) : List Bytes :=
  l.foldl (fun s bp => if bp.2.Reference ∈ s then s else bp.2.Reference :: s) seen

/-- An injective encoding of a byte string into a natural number
(used to build collision-free witness primitives). -/
def encNat : Bytes → Nat
  | [] => 0
  | b :: rest => Nat.pair b (encNat rest) + 1

/-- A collision-free, never-zero 32-byte "hash" for witnesses. -/
def injHash (m : Bytes) : Bytes := (encNat m + 1) :: List.replicate 31 0

def injPrims : Prims := ⟨fun _ m => injHash m, injHash, fun _ _ _ => 0⟩

theorem splitGo_fuel {bs : Nat} :
    ∀ (f1 f2 : Nat) (content : Bytes), content.length ≤ f1 →
      content.length ≤ f2 → splitGo bs f1 content = splitGo bs f2 content := by
  intro f1
  induction f1 with
  | zero =>
    intro f2 content h1 h2
    have : content = [] := List.eq_nil_of_length_eq_zero (by omega)
    subst this
    cases f2 with
    | zero => rfl
    | succ g =>
      rw [splitGo, splitGo, if_neg (by rintro ⟨hb, hle⟩; simp at hle; omega)]
  | succ g ih =>
    intro f2 content h1 h2
    cases f2 with
    | zero =>
      have : content = [] := List.eq_nil_of_length_eq_zero (by omega)
      subst this
      rw [splitGo, splitGo, if_neg (by rintro ⟨hb, hle⟩; simp at hle; omega)]
    | succ h =>
      rw [splitGo, splitGo]
      by_cases hc : 0 < bs ∧ bs ≤ content.length
      · rw [if_pos hc, if_pos hc]
        rw [ih h (content.drop bs) (by simp; omega) (by simp; omega)]
      · rw [if_neg hc, if_neg hc]

theorem splitBlocks_eq (content : Bytes) (bs : Nat) :
    splitBlocks content bs =
      if 0 < bs ∧ bs ≤ content.length then
        content.take bs :: splitBlocks (content.drop bs) bs
      else [appendPadInput content bs] := by
  unfold splitBlocks
  by_cases hc : 0 < bs ∧ bs ≤ content.length
  · rw [if_pos hc]
    obtain ⟨g, hg⟩ : ∃ g, content.length = g + 1 :=
      ⟨content.length - 1, by omega⟩
    rw [hg, splitGo, if_pos hc]
    congr 1
    exact splitGo_fuel g (content.drop bs).length (content.drop bs)
      (by simp; omega) (by simp)
  · rw [if_neg hc]
    cases hl : content.length with
    | zero => rw [splitGo]
    | succ g => rw [splitGo, if_neg hc]

theorem splitBlocks_ind (bs : Nat) (motive : Bytes → Prop)
    (h1 : ∀ content, (0 < bs ∧ bs ≤ content.length) →
      motive (content.drop bs) → motive content)
    (h2 : ∀ content, ¬(0 < bs ∧ bs ≤ content.length) → motive content) :
    ∀ content, motive content := by
  suffices h : ∀ (m : Nat) (content : Bytes), content.length ≤ m → motive content by
    intro content
    exact h content.length content le_rfl
  intro m
  induction m with
  | zero =>
    intro content hlen
    refine h2 content ?_
    rintro ⟨hb, hle⟩
    omega
  | succ k ih =>
    intro content hlen
    by_cases hc : 0 < bs ∧ bs ≤ content.length
    · refine h1 content hc (ih (content.drop bs) ?_)
      simp
      omega
    · exact h2 content hc

theorem chunkGo_fuel {α : Type} {n : Nat} :
    ∀ (f1 f2 : Nat) (l : List α), l.length ≤ f1 →
      l.length ≤ f2 → chunkGo n f1 l = chunkGo n f2 l := by
  intro f1
  induction f1 with
  | zero =>
    intro f2 l h1 h2
    have : l = [] := List.eq_nil_of_length_eq_zero (by omega)
    subst this
    cases f2 <;> rfl
  | succ g ih =>
    intro f2 l h1 h2
    cases l with
    | nil => cases f2 <;> rfl
    | cons a t =>
      cases f2 with
      | zero => simp at h2
      | succ h =>
        simp only [List.length_cons] at h1 h2
        rw [chunkGo, chunkGo]
        by_cases hc : 0 < n
        · rw [if_pos hc, if_pos hc]
          rw [ih h ((a :: t).drop n) (by simp; omega) (by simp; omega)]
        · rw [if_neg hc, if_neg hc]

theorem chunkList_nil {α : Type} (n : Nat) : chunkList n ([] : List α) = [] := rfl

theorem chunkList_cons {α : Type} (n : Nat) (a : α) (t : List α) :
    chunkList n (a :: t) =
      if 0 < n then (a :: t).take n :: chunkList n ((a :: t).drop n)
      else [a :: t] := by
  unfold chunkList
  rw [show (a :: t).length = t.length + 1 from rfl, chunkGo]
  by_cases hc : 0 < n
  · rw [if_pos hc, if_pos hc]
    congr 1
    exact chunkGo_fuel t.length ((a :: t).drop n).length ((a :: t).drop n)
      (by simp; omega) (by simp)
  · rw [if_neg hc, if_neg hc]

theorem chunkList_ind {α : Type} (n : Nat) (motive : List α → Prop)
    (h1 : motive [])
    (h2 : ∀ (a : α) (t : List α), 0 < n → motive ((a :: t).drop n) →
      motive (a :: t))
    (h3 : ∀ (a : α) (t : List α), ¬0 < n → motive (a :: t)) :
    ∀ l, motive l := by
  suffices h : ∀ (m : Nat) (l : List α), l.length ≤ m → motive l by
    intro l
    exact h l.length l le_rfl
  intro m
  induction m with
  | zero =>
    intro l hlen
    have : l = [] := List.eq_nil_of_length_eq_zero (by omega)
    subst this
    exact h1
  | succ k ih =>
    intro l hlen
    cases l with
    | nil => exact h1
    | cons a t =>
      by_cases hc : 0 < n
      · refine h2 a t hc (ih ((a :: t).drop n) ?_)
        simp at hlen ⊢
        omega
      · exact h3 a t hc

theorem appendPadInput_length {B : Bytes} {bs : Nat} (h : B.length ≤ bs) :
    (appendPadInput B bs).length = bs := by
  unfold appendPadInput
  rcases Nat.lt_or_ge B.length bs with hlt | hge
  · rw [if_neg (by omega)]
    simp [List.length_append, List.length_replicate]
    omega
  · rw [if_pos (by omega)]
    omega

theorem unpadRev_zeros {m fuel : Nat} (r : Bytes) (h : m < fuel) :
    unpadRev fuel (List.replicate m 0 ++ 0x80 :: r) = .ok r.reverse := by
  induction m generalizing fuel with
  | zero =>
    cases fuel with
    | zero => omega
    | succ f => simp [unpadRev]
  | succ n ih =>
    cases fuel with
    | zero => omega
    | succ f =>
      simp only [List.replicate_succ, List.cons_append, unpadRev]
      norm_num
      exact ih (by omega)

theorem unpadRev_no80 {fuel : Nat} {l : Bytes}
    (h : ∀ b ∈ l.take fuel, b ≠ 0x80) :
    unpadRev fuel l = .err .invalidPadding := by
  induction fuel generalizing l with
  | zero => simp [unpadRev]
  | succ f ih =>
    cases l with
    | nil => simp [unpadRev]
    | cons b rest =>
      have hb : b ≠ 0x80 := h b (by simp)
      simp only [unpadRev]
      rw [if_neg hb]
      by_cases hb0 : b = 0
      · rw [if_pos hb0]
        exact ih (fun x hx => h x (by simp [List.take_succ_cons]; right; exact hx))
      · rw [if_neg hb0]

theorem removePadding_appendPadInput {B : Bytes} {bs : Nat} (h : B.length < bs) :
    removePadding (appendPadInput B bs) bs = .ok B := by
  have hlen := appendPadInput_length (Nat.le_of_lt h)
  unfold removePadding
  rw [if_neg (by omega)]
  unfold appendPadInput
  rw [if_neg (by omega)]
  rw [List.reverse_append, List.reverse_cons, List.reverse_replicate]
  rw [List.append_assoc, List.singleton_append]
  rw [unpadRev_zeros _ (by omega)]
  simp

theorem removePadding_no80 {buf : Bytes} {bs : Nat} (h : bs ≤ buf.length)
    (h80 : ∀ b ∈ buf.drop (buf.length - bs), b ≠ 0x80) :
    removePadding buf bs = .err .invalidPadding := by
  unfold removePadding
  rw [if_neg (by omega)]
  apply unpadRev_no80
  intro b hb
  apply h80
  have : (buf.drop (buf.length - bs)).reverse = buf.reverse.take bs := by
    have h1 := List.rtake_eq_reverse_take_reverse buf bs
    rw [List.rtake] at h1
    rw [h1, List.reverse_reverse]
  rw [← this] at hb
  exact List.mem_reverse.mp hb

theorem splitBlocks_length {B : Bytes} {bs : Nat} (h : 0 < bs) :
    (splitBlocks B bs).length = B.length / bs + 1 := by
  refine splitBlocks_ind bs
    (fun B => (splitBlocks B bs).length = B.length / bs + 1) ?_ ?_ B
  · intro content hc ih
    rw [splitBlocks_eq, if_pos hc]
    simp only [List.length_cons]
    rw [ih, List.length_drop]
    have h2 : content.length = (content.length - bs) + bs := by omega
    conv_rhs => rw [h2]
    rw [Nat.add_div_right _ hc.1]
  · intro content hc
    rw [splitBlocks_eq, if_neg hc]
    simp only [List.length_cons, List.length_nil]
    have h2 : content.length < bs := by
      rcases Nat.lt_or_ge content.length bs with hl | hg
      · exact hl
      · exact absurd ⟨h, hg⟩ hc
    rw [Nat.div_eq_of_lt h2]

theorem splitBlocks_mem_length {B : Bytes} {bs : Nat} (h : 0 < bs) :
    ∀ blk ∈ splitBlocks B bs, blk.length = bs := by
  refine splitBlocks_ind bs
    (fun B => ∀ blk ∈ splitBlocks B bs, blk.length = bs) ?_ ?_ B
  · intro content hc ih
    rw [splitBlocks_eq, if_pos hc]
    intro blk hm
    rcases List.mem_cons.mp hm with hm | hm
    · rw [hm, List.length_take]
      omega
    · exact ih blk hm
  · intro content hc
    rw [splitBlocks_eq, if_neg hc]
    intro blk hm
    rcases List.mem_singleton.mp hm with rfl
    have h2 : content.length < bs := by
      rcases Nat.lt_or_ge content.length bs with hl | hg
      · exact hl
      · exact absurd ⟨h, hg⟩ hc
    exact appendPadInput_length (Nat.le_of_lt h2)

theorem splitBlocks_ne_nil (B : Bytes) (bs : Nat) :
    ∃ x xs, splitBlocks B bs = x :: xs := by
  rw [splitBlocks_eq]
  split
  · exact ⟨_, _, rfl⟩
  · exact ⟨_, _, rfl⟩

theorem splitBlocks_getLast_of_dvd {B : Bytes} {bs : Nat} (h : 0 < bs)
    (hd : bs ∣ B.length) :
    (splitBlocks B bs).getLast? = some (0x80 :: List.replicate (bs - 1) 0) := by
  refine splitBlocks_ind bs (fun B => bs ∣ B.length →
    (splitBlocks B bs).getLast? = some (0x80 :: List.replicate (bs - 1) 0))
    ?_ ?_ B hd
  · intro content hc ih hdvd
    rw [splitBlocks_eq, if_pos hc]
    obtain ⟨x, xs, hx⟩ := splitBlocks_ne_nil (content.drop bs) bs
    rw [hx, List.getLast?_cons_cons, ← hx]
    refine ih ?_
    rw [List.length_drop]
    exact Nat.dvd_sub' hdvd dvd_rfl
  · intro content hc hdvd
    rw [splitBlocks_eq, if_neg hc]
    have h2 : content.length < bs := by
      rcases Nat.lt_or_ge content.length bs with hl | hg
      · exact hl
      · exact absurd ⟨h, hg⟩ hc
    have h0 : content.length = 0 := by
      rcases hdvd with ⟨k, hk⟩
      rcases k with _ | k
      · omega
      · exfalso
        have : bs ≤ content.length := by
          rw [hk]
          exact Nat.le_mul_of_pos_right _ (by omega)
        omega
    rcases List.eq_nil_of_length_eq_zero h0 with rfl
    rw [List.getLast?_singleton]
    unfold appendPadInput
    rw [if_neg (by simp; omega)]
    simp
/-- C5 (amended): for |B| < bs the pad output has length a multiple of
bs and unpads back to B; any buffer (of length ≥ bs) whose last bs
bytes contain no 0x80 fails to unpad with InvalidPadding. -/
theorem C5_padding_laws (B buf : Bytes) (bs bs2 : Nat)
    (h1 : B.length < bs) (h2 : bs2 ≤ buf.length)
    (h3 : ∀ b ∈ buf.drop (buf.length - bs2), b ≠ 0x80) :
    (appendPadInput B bs).length % bs = 0 ∧
    removePadding (appendPadInput B bs) bs = .ok B ∧
    removePadding buf bs2 = .err .invalidPadding := by
  refine ⟨?_, removePadding_appendPadInput h1, removePadding_no80 h2 h3⟩
  rw [appendPadInput_length (Nat.le_of_lt h1)]
  exact Nat.mod_self bs

theorem C5_padding_laws_witness :
    ([1, 2, 3] : Bytes).length < 4 ∧
    (appendPadInput [1, 2, 3] 4).length % 4 = 0 ∧
    removePadding (appendPadInput [1, 2, 3] 4) 4 = .ok [1, 2, 3] ∧
    removePadding [5, 0, 0, 0] 4 = .err .invalidPadding := by
  have h := C5_padding_laws [1, 2, 3] [5, 0, 0, 0] 4 4 (by decide) (by decide)
    (by decide)
  exact ⟨by decide, h.1, h.2.1, h.2.2⟩

/-- C5 as stated fails at |B| = bs: a full block is returned unpadded
by `appendPadInput`, and unpadding an all-zero block fails. -/
theorem C5_counterexample :
    ([0, 0, 0, 0] : Bytes).length ≤ 4 ∧
    removePadding (appendPadInput [0, 0, 0, 0] 4) 4 ≠ .ok [0, 0, 0, 0] := by
  decide

/-- C6: the splitter yields ⌈(n+1)/bs⌉ blocks, each of length bs, and
when bs divides n the final block is 0x80 followed by bs−1 zeros. -/
theorem C6_splitter (B : Bytes) (bs : Nat) (h : 0 < bs) :
    (splitBlocks B bs).length = (B.length + 1 + (bs - 1)) / bs ∧
    (splitBlocks B bs).length = B.length / bs + 1 ∧
    (∀ blk ∈ splitBlocks B bs, blk.length = bs) ∧
    (bs ∣ B.length →
      (splitBlocks B bs).getLast? = some (0x80 :: List.replicate (bs - 1) 0)) := by
  refine ⟨?_, splitBlocks_length h, splitBlocks_mem_length h,
    splitBlocks_getLast_of_dvd h⟩
  rw [splitBlocks_length h]
  have h2 : B.length + 1 + (bs - 1) = B.length + bs := by omega
  rw [h2, Nat.add_div_right _ h]

theorem C6_splitter_witness :
    (splitBlocks [1, 2, 3, 4] 4).length = (4 + 1 + 3) / 4 ∧
    (splitBlocks [1, 2, 3, 4] 4).length = 2 ∧
    (splitBlocks [1, 2, 3, 4] 4).getLast? = some [0x80, 0, 0, 0] := by
  have h := C6_splitter [1, 2, 3, 4] 4 (by decide)
  refine ⟨h.1, h.2.1, ?_⟩
  have h4 := h.2.2.2 (by decide)
  simpa using h4

/-- C3: on every node dereference with the fetch function returning
`bytes`: a wrong-length result gives InvalidBlockSize; a right-length
result whose Blake2b hash mismatches the requested reference gives
InvalidBlock; otherwise the block is decrypted with ChaCha20 under the
pair's key and nonce level-byte || 11 zero bytes. -/
theorem C3_dereference (P : Prims) (fetch : FetchFunc)
    (ref : ReferenceKeyPair) (level bs : Nat) (bytes : Bytes)
    (hfetch : fetch ref.Reference = .ok bytes) :
    dereferenceNode P fetch ref level bs =
      if bytes.length ≠ bs then .err .invalidBlockSize
      else if P.hash bytes ≠ ref.Reference then .err .invalidBlock
      else .ok (xorKeystream
        (P.ks ref.Key ((level % 256) :: List.replicate 11 0)) 0 bytes) := by
  unfold dereferenceNode
  rw [hfetch]
  rfl

theorem C3_dereference_witness :
    dereferenceNode mockPrims (fun _ => .ok [5]) ⟨zeroRef, []⟩ 0 1 =
      if ([5] : Bytes).length ≠ 1 then .err .invalidBlockSize
      else if mockPrims.hash [5] ≠ zeroRef then .err .invalidBlock
      else .ok (xorKeystream
        (mockPrims.ks [] ((0 % 256) :: List.replicate 11 0)) 0 [5]) :=
  C3_dereference mockPrims (fun _ => .ok [5]) ⟨zeroRef, []⟩ 0 1 [5] rfl

/-- C9: the source slices `urn[:9]` before checking the length, so a
3-byte input panics instead of returning an error. -/
theorem C9_parse_short_panics :
    ("abc".data.map Char.toNat).length < 9 ∧
    ParseReadCapabilityURN ("abc".data.map Char.toNat) = .panicked := by
  constructor
  · decide
  · rfl

/-- C2: with level > 0, if the decrypted root node's hash differs from
the capability's root key, the first advance fails with InvalidKey;
and the error is sticky — any advance on a state with an error set
returns false and leaves the state unchanged. -/
theorem C2_invalid_key (P : Prims) (fetch : FetchFunc) (rc : ReadCapability)
    (node : Bytes) (fuel : Nat)
    (hl : 0 < rc.Level)
    (hderef : dereferenceNode P fetch rc.Root rc.Level rc.BlockSize = .ok node)
    (hmis : P.hash node ≠ rc.Root.Key) :
    decoderNext P fetch fuel (NewDecoder rc) =
      (false, { NewDecoder rc with err := some .invalidKey }) ∧
    (∀ (fuel2 : Nat) (d : DecoderState) (e : ErisError), d.err = some e →
      decoderNext P fetch fuel2 d = (false, d)) := by
  constructor
  · obtain ⟨l, hrc⟩ : ∃ l, rc.Level = l + 1 := ⟨rc.Level - 1, by omega⟩
    unfold decoderNext NewDecoder
    simp only
    rw [hrc] at hderef ⊢
    simp only [hderef]
    rw [if_pos hmis]
    simp
  · intro fuel2 d e he
    unfold decoderNext
    rw [he]

theorem C2_invalid_key_witness :
    decoderNext mockPrims (fun _ => .ok [5]) 0
        (NewDecoder ⟨1, 1, ⟨mockHash [5], []⟩⟩) =
      (false,
        { NewDecoder ⟨1, 1, ⟨mockHash [5], []⟩⟩ with err := some .invalidKey }) :=
  (C2_invalid_key mockPrims (fun _ => .ok [5]) ⟨1, 1, ⟨mockHash [5], []⟩⟩ [5] 0
    (by decide) (by decide) (by decide)).1


theorem chunkList_length_le {α : Type} (n : Nat) (m : List α) :
    (chunkList n m).length ≤ m.length := by
  refine chunkList_ind n (fun m => (chunkList n m).length ≤ m.length)
    ?_ ?_ ?_ m
  · show (chunkList n ([] : List α)).length ≤ ([] : List α).length
    rw [chunkList_nil]
    exact le_rfl
  · intro b u hn2 ih
    show (chunkList n (b :: u)).length ≤ (b :: u).length
    rw [chunkList_cons, if_pos hn2]
    simp only [List.length_cons, List.length_drop] at ih ⊢
    omega
  · intro b u hn2
    rw [chunkList_cons, if_neg hn2]
    simp

theorem chunkList_flatten {α : Type} (n : Nat) (hn : 0 < n) (l : List α) :
    (chunkList n l).flatten = l := by
  refine chunkList_ind n (fun l => (chunkList n l).flatten = l) ?_ ?_ ?_ l
  · show (chunkList n ([] : List α)).flatten = []
    rw [chunkList_nil]
    rfl
  · intro b u hn2 ih
    show (chunkList n (b :: u)).flatten = b :: u
    rw [chunkList_cons, if_pos hn2]
    simp only [List.flatten_cons]
    rw [show (chunkList n ((b :: u).drop n)).flatten = (b :: u).drop n from ih]
    exact List.take_append_drop _ _
  · intro b u hn2
    exact absurd hn hn2

theorem chunkList_length_lt {α : Type} {n : Nat} {l : List α}
    (hn : 2 ≤ n) (hl : 2 ≤ l.length) :
    (chunkList n l).length < l.length := by
  cases l with
  | nil => simp at hl
  | cons a t =>
    rw [chunkList_cons, if_pos (by omega)]
    have h2 := chunkList_length_le n ((a :: t).drop n)
    simp only [List.length_drop, List.length_cons] at h2 hl ⊢
    omega

theorem chunkList_ne_nil {α : Type} {n : Nat} {l : List α} (hl : l ≠ []) :
    chunkList n l ≠ [] := by
  cases l with
  | nil => exact absurd rfl hl
  | cons a t =>
    rw [chunkList_cons]
    split
    · exact List.cons_ne_nil _ _
    · exact List.cons_ne_nil _ _

theorem foldPairs_isSome (P : Prims) (bs : Nat) (hn : 2 ≤ arity bs) :
    ∀ (fuel level : Nat) (pairs : List ReferenceKeyPair), pairs ≠ [] →
      pairs.length ≤ fuel + 1 → (foldPairs P bs fuel level pairs).isSome := by
  intro fuel
  induction fuel with
  | zero =>
    intro level pairs hne hlen
    match pairs, hne with
    | [p], _ => simp [foldPairs]
    | a :: b :: t, _ => simp at hlen
  | succ f ih =>
    intro level pairs hne hlen
    match pairs, hne with
    | [p], _ => simp [foldPairs]
    | a :: b :: t, _ =>
      have hlen2 : (a :: b :: t).length ≤ f + 2 := hlen
      have hchunk : (chunkList (arity bs) (a :: b :: t)).length < (a :: b :: t).length :=
        chunkList_length_lt hn (by simp)
      have hne2 : (List.map Prod.snd
          (List.map (fun n => encryptInternalNode P n (level + 1))
            (constructInternalNodes (a :: b :: t) bs))) ≠ [] := by
        simp only [ne_eq, List.map_eq_nil_iff, constructInternalNodes]
        exact chunkList_ne_nil (by simp)
      have hlen3 : (List.map Prod.snd
          (List.map (fun n => encryptInternalNode P n (level + 1))
            (constructInternalNodes (a :: b :: t) bs))).length ≤ f + 1 := by
        simp only [List.length_map, constructInternalNodes]
        omega
      have hrec := ih (level + 1) _ hne2 hlen3
      obtain ⟨r, hr⟩ := Option.isSome_iff_exists.mp hrec
      simp only [foldPairs, hr]
      rfl

theorem foldPairs_level_le (P : Prims) (bs : Nat) :
    ∀ (fuel level : Nat) (pairs : List ReferenceKeyPair) r,
      foldPairs P bs fuel level pairs = some r → level ≤ r.2.1 := by
  intro fuel
  induction fuel with
  | zero =>
    intro level pairs r hfold
    match pairs with
    | [] => simp [foldPairs] at hfold
    | [p] =>
      simp [foldPairs] at hfold
      rw [← hfold]
    | a :: b :: t => simp [foldPairs] at hfold
  | succ f ih =>
    intro level pairs r hfold
    match pairs with
    | [] => simp [foldPairs] at hfold
    | [p] =>
      simp [foldPairs] at hfold
      rw [← hfold]
    | a :: b :: t =>
      simp only [foldPairs] at hfold
      cases hrec : foldPairs P bs f (level + 1)
          (List.map Prod.snd
            (List.map (fun n => encryptInternalNode P n (level + 1))
              (constructInternalNodes (a :: b :: t) bs))) with
      | none => rw [hrec] at hfold; simp at hfold
      | some r2 =>
        rw [hrec] at hfold
        simp only [Option.map_some'] at hfold
        have := ih (level + 1) _ r2 hrec
        have hr : r = (_, r2.2) := (Option.some_injective _ hfold).symm
        rw [hr]
        simp only
        omega

theorem foldPairs_level_pos (P : Prims) (bs : Nat) (fuel level : Nat)
    (pairs : List ReferenceKeyPair) (r : List (Bytes × ReferenceKeyPair) × Nat × ReferenceKeyPair)
    (hlen : 2 ≤ pairs.length) (hfold : foldPairs P bs fuel level pairs = some r) :
    level + 1 ≤ r.2.1 := by
  match pairs, hlen with
  | a :: b :: t, _ =>
    cases fuel with
    | zero => simp [foldPairs] at hfold
    | succ f =>
      simp only [foldPairs] at hfold
      cases hrec : foldPairs P bs f (level + 1)
          (List.map Prod.snd
            (List.map (fun n => encryptInternalNode P n (level + 1))
              (constructInternalNodes (a :: b :: t) bs))) with
      | none => rw [hrec] at hfold; simp at hfold
      | some r2 =>
        rw [hrec] at hfold
        simp only [Option.map_some'] at hfold
        have h1 := foldPairs_level_le P bs f (level + 1) _ r2 hrec
        have hr : r = (_, r2.2) := (Option.some_injective _ hfold).symm
        rw [hr]
        simp only
        omega

theorem foldPairs_singleton (P : Prims) (bs fuel level : Nat) (p : ReferenceKeyPair) :
    foldPairs P bs fuel level [p] = some ([], level, p) := by
  cases fuel <;> simp [foldPairs]

/-- C7: the one-shot encoder's capability has level 0 exactly when the
content fits in a single (padded) leaf block, i.e. its length is less
than the block size; otherwise the level is at least 1. -/
theorem C7_level (P : Prims) (B S : Bytes) (bs : Nat)
    (hbs : bs = 1024 ∨ bs = 32768) :
    ∃ blocks cap, Encode P B S bs = some (blocks, cap) ∧
      (cap.Level = 0 ↔ B.length < bs) ∧
      (bs ≤ B.length → 1 ≤ cap.Level) := by
  have hb0 : 0 < bs := by rcases hbs with rfl | rfl <;> decide
  have hn : 2 ≤ arity bs := by rcases hbs with rfl | rfl <;> decide
  have hsplitlen : (splitBlocks B bs).length = B.length / bs + 1 :=
    splitBlocks_length hb0
  set pairs := ((splitBlocks B bs).map (fun l => encryptLeafNode P l S)).map Prod.snd
    with hpairs
  have hplen : pairs.length = B.length / bs + 1 := by
    rw [hpairs]
    simp [hsplitlen]
  have hpne : pairs ≠ [] := by
    intro hfalse
    rw [hfalse] at hplen
    simp at hplen
  have hsome := foldPairs_isSome P bs hn pairs.length 0 pairs hpne (by omega)
  obtain ⟨r, hr⟩ := Option.isSome_iff_exists.mp hsome
  refine ⟨((splitBlocks B bs).map (fun l => encryptLeafNode P l S)) ++ r.1,
    ⟨bs, r.2.1, r.2.2⟩, ?_, ?_, ?_⟩
  · unfold Encode
    simp only
    rw [← hpairs, hr]
    rfl
  · constructor
    · intro hlvl0
      by_contra hge
      push_neg at hge
      have h2 : 2 ≤ pairs.length := by
        rw [hplen]
        have : 1 ≤ B.length / bs := Nat.one_le_div_iff hb0 |>.mpr hge
        omega
      have := foldPairs_level_pos P bs pairs.length 0 pairs r h2 hr
      simp only at hlvl0
      omega
    · intro hlt
      have h1 : pairs.length = 1 := by
        rw [hplen, Nat.div_eq_of_lt hlt]
      obtain ⟨p, hp⟩ := List.length_eq_one.mp h1
      rw [hp, foldPairs_singleton] at hr
      have := (Option.some_injective _ hr)
      rw [← this]
  · intro hge
    have h2 : 2 ≤ pairs.length := by
      rw [hplen]
      have : 1 ≤ B.length / bs := Nat.one_le_div_iff hb0 |>.mpr hge
      omega
    have := foldPairs_level_pos P bs pairs.length 0 pairs r h2 hr
    simpa using this

theorem C7_level_witness :
    (∃ blocks cap, Encode mockPrims [7] [] 1024 = some (blocks, cap) ∧
      (cap.Level = 0 ↔ ([7] : Bytes).length < 1024) ∧
      (1024 ≤ ([7] : Bytes).length → 1 ≤ cap.Level)) :=
  C7_level mockPrims [7] [] 1024 (Or.inl rfl)


set_option maxRecDepth 2000 in
theorem bitsToNat_byteToBits : ∀ b < 256, bitsToNat (byteToBits b) = b := by
  decide

theorem natToBits5_bitsToNat :
    ∀ c : List Bool, c.length = 5 → natToBits5 (bitsToNat c) = c := by
  intro c hc
  match c, hc with
  | [a, b, c', d, e], _ =>
    revert a b c' d e
    decide

theorem bitsToNat_lt_32 :
    ∀ c : List Bool, c.length = 5 → bitsToNat c < 32 := by
  intro c hc
  match c, hc with
  | [a, b, c', d, e], _ =>
    revert a b c' d e
    decide

theorem alphabet_index :
    ∀ v < 32, b32alphabet.indexOf? (b32alphabet.getD v 0) = some v := by
  decide

theorem bytesToBits_length (l : Bytes) : (bytesToBits l).length = 8 * l.length := by
  induction l with
  | nil => rfl
  | cons b rest ih =>
    have hsplit : bytesToBits (b :: rest) = byteToBits b ++ bytesToBits rest := by
      simp [bytesToBits]
    rw [hsplit, List.length_append, ih]
    rw [show (byteToBits b).length = 8 from rfl]
    simp only [List.length_cons]
    omega

theorem chunkList_mem_length_of_dvd {α : Type} {n : Nat} (hn : 0 < n) :
    ∀ (l : List α), n ∣ l.length → ∀ c ∈ chunkList n l, c.length = n := by
  intro l
  refine chunkList_ind n
    (fun l => n ∣ l.length → ∀ c ∈ chunkList n l, c.length = n) ?_ ?_ ?_ l
  · intro _ c hc
    rw [chunkList_nil] at hc
    simp at hc
  · intro a t hpos ih hdvd c hc
    have hle : n ≤ (a :: t).length := by
      rcases hdvd with ⟨k, hk⟩
      rcases k with _ | k
      · simp at hk
      · have : n ≤ n * (k + 1) := Nat.le_mul_of_pos_right _ (by omega)
        omega
    rw [chunkList_cons, if_pos hpos] at hc
    rcases List.mem_cons.mp hc with rfl | hc
    · rw [List.length_take]
      omega
    · apply ih _ c hc
      simp only [List.length_drop]
      exact Nat.dvd_sub' hdvd dvd_rfl
  · intro a t hpos
    exact absurd hn hpos

theorem chunkList5_length (l : List Bool) :
    (chunkList 5 l).length = (l.length + 4) / 5 := by
  refine chunkList_ind 5 (fun l => (chunkList 5 l).length = (l.length + 4) / 5)
    ?_ ?_ ?_ l
  · show (chunkList 5 ([] : List Bool)).length = (0 + 4) / 5
    rw [chunkList_nil]
    rfl
  · intro a t _ ih
    show (chunkList 5 (a :: t)).length = ((a :: t).length + 4) / 5
    rw [chunkList_cons, if_pos (by omega)]
    simp only [List.length_cons, List.length_drop] at ih ⊢
    rw [ih]
    omega
  · intro a t hpos
    exact absurd (by omega) hpos

theorem chunkList_append {α : Type} {n : Nat} {l1 l2 : List α}
    (h : l1.length = n) (hn : 0 < n) :
    chunkList n (l1 ++ l2) = l1 :: chunkList n l2 := by
  cases l1 with
  | nil =>
    rw [← h] at hn
    simp at hn
  | cons a t =>
    rw [List.cons_append, chunkList_cons, if_pos hn, ← List.cons_append]
    rw [List.take_left' h, List.drop_left' h]

theorem chunkBits8 (data : Bytes) (hdata : ∀ b ∈ data, b < 256) :
    (chunkList 8 (bytesToBits data)).map bitsToNat = data := by
  induction data with
  | nil => rfl
  | cons b rest ih =>
    have hsplit : bytesToBits (b :: rest) = byteToBits b ++ bytesToBits rest := by
      simp [bytesToBits]
    rw [hsplit, @chunkList_append _ 8 (byteToBits b) _ rfl (by omega), List.map_cons]
    rw [bitsToNat_byteToBits b (hdata b (by simp))]
    rw [ih (fun x hx => hdata x (by simp [hx]))]

theorem mapM_indexOf_getD (chunks : List (List Bool))
    (hlen : ∀ c ∈ chunks, c.length = 5) :
    (chunks.map (fun c => b32alphabet.getD (bitsToNat c) 0)).mapM
      (fun ch => b32alphabet.indexOf? ch) = some (chunks.map bitsToNat) := by
  induction chunks with
  | nil => rfl
  | cons c rest ih =>
    rw [List.map_cons, List.mapM_cons]
    rw [alphabet_index (bitsToNat c) (bitsToNat_lt_32 c (hlen c (by simp)))]
    rw [ih (fun x hx => hlen x (by simp [hx]))]
    rfl

theorem map_natToBits5_flatten (chunks : List (List Bool))
    (hlen : ∀ c ∈ chunks, c.length = 5) :
    ((chunks.map bitsToNat).map natToBits5).flatten = chunks.flatten := by
  rw [List.map_map]
  congr 1
  refine List.map_congr_left ?_ |>.trans (List.map_id chunks)
  intro c hc
  exact natToBits5_bitsToNat c (hlen c hc)

theorem base32_roundtrip (data : Bytes) (hdata : ∀ b ∈ data, b < 256) :
    base32Decode (base32Encode data) = .ok data := by
  have hbl : (bytesToBits data).length = 8 * data.length := bytesToBits_length data
  have henc : base32Encode data =
      (chunkList 5 (bytesToBits data ++
        List.replicate ((5 - (bytesToBits data).length % 5) % 5) false)).map
        (fun c => b32alphabet.getD (bitsToNat c) 0) := rfl
  have hplen : (bytesToBits data ++
      List.replicate ((5 - (bytesToBits data).length % 5) % 5) false).length =
      8 * data.length + (5 - (8 * data.length) % 5) % 5 := by
    rw [List.length_append, List.length_replicate, hbl]
  have hdvd : (5 : Nat) ∣ (bytesToBits data ++
      List.replicate ((5 - (bytesToBits data).length % 5) % 5) false).length := by
    rw [hplen]
    omega
  have hchlen := chunkList_mem_length_of_dvd (by omega) _ hdvd
  have hslen : (base32Encode data).length =
      (8 * data.length + (5 - (8 * data.length) % 5) % 5 + 4) / 5 := by
    rw [henc, List.length_map, chunkList5_length, hplen]
  rw [base32Decode]
  rw [if_neg (by rw [hslen]; omega)]
  rw [henc, mapM_indexOf_getD _ hchlen]
  simp only
  rw [map_natToBits5_flatten _ hchlen]
  rw [chunkList_flatten 5 (by omega)]
  congr 1
  have htake : (bytesToBits data ++
      List.replicate ((5 - (bytesToBits data).length % 5) % 5) false).take
        (8 * ((bytesToBits data ++
          List.replicate ((5 - (bytesToBits data).length % 5) % 5) false).length / 8)) =
      bytesToBits data := by
    rw [hplen]
    rw [show 8 * ((8 * data.length + (5 - 8 * data.length % 5) % 5) / 8) =
      (bytesToBits data).length from by rw [hbl]; omega]
    exact List.take_left _ _
  rw [htake]
  exact chunkBits8 data hdata

theorem UnmarshalBinary_MarshalBinary (rc : ReadCapability) (b0 : Nat)
    (hm : MarshalBinary rc = .ok (b0 :: rc.Level :: (rc.Root.Reference ++ rc.Root.Key)))
    (hpow : 2 ^ b0 = rc.BlockSize)
    (hbs : rc.BlockSize = 1024 ∨ rc.BlockSize = 32768)
    (href : rc.Root.Reference.length = 32) (hkey : rc.Root.Key.length = 32) :
    UnmarshalBinary (b0 :: rc.Level :: (rc.Root.Reference ++ rc.Root.Key)) = .ok rc := by
  have hlen : (b0 :: rc.Level :: (rc.Root.Reference ++ rc.Root.Key)).length = 66 := by
    simp [List.length_append, href, hkey]
  rw [UnmarshalBinary]
  rw [if_neg (by omega)]
  simp only [List.getD_cons_zero, List.getD_cons_succ]
  rw [if_neg (by rw [hpow]; rcases hbs with h | h <;> rw [h] <;> simp)]
  have hdrop2 : (b0 :: rc.Level :: (rc.Root.Reference ++ rc.Root.Key)).drop 2 =
      rc.Root.Reference ++ rc.Root.Key := rfl
  have hdrop34 : (b0 :: rc.Level :: (rc.Root.Reference ++ rc.Root.Key)).drop 34 =
      (rc.Root.Reference ++ rc.Root.Key).drop 32 := by
    rw [show (34 : Nat) = 32 + 2 from rfl]
    rw [show (b0 :: rc.Level :: (rc.Root.Reference ++ rc.Root.Key)).drop (32 + 2) =
      ((b0 :: rc.Level :: (rc.Root.Reference ++ rc.Root.Key)).drop 2).drop 32 from by
        rw [List.drop_drop]]
    rw [hdrop2]
  rw [hdrop2, hdrop34]
  rw [List.take_left' href, List.drop_left' href]
  rw [show rc.Root.Key.take 32 = rc.Root.Key from by
    rw [← hkey, List.take_length]]
  rw [hpow]

/-- C8: parsing the URN of any constructible read capability (supported
block size, level ≤ 255, 32-byte root reference and key with byte-range
entries) yields the capability back. -/
theorem C8_urn_roundtrip (rc : ReadCapability)
    (hbs : rc.BlockSize = 1024 ∨ rc.BlockSize = 32768)
    (hlvl : rc.Level ≤ 255)
    (href : rc.Root.Reference.length = 32) (hkey : rc.Root.Key.length = 32)
    (hrefb : ∀ b ∈ rc.Root.Reference, b < 256)
    (hkeyb : ∀ b ∈ rc.Root.Key, b < 256) :
    (URN rc).bind ParseReadCapabilityURN = .ok rc := by
  have hb0 : ∃ b0, b0 < 256 ∧ 2 ^ b0 = rc.BlockSize ∧
      MarshalBinary rc = .ok (b0 :: rc.Level :: (rc.Root.Reference ++ rc.Root.Key)) := by
    rcases hbs with h | h
    · refine ⟨10, by omega, by rw [h]; rfl, ?_⟩
      rw [MarshalBinary, h]
      simp only [GoResult.bind]
      rw [if_neg (by omega)]
    · refine ⟨15, by omega, by rw [h]; rfl, ?_⟩
      rw [MarshalBinary, h]
      simp only [GoResult.bind]
      rw [if_neg (by omega)]
  obtain ⟨b0, hb0small, hpow, hm⟩ := hb0
  set m := b0 :: rc.Level :: (rc.Root.Reference ++ rc.Root.Key) with hmdef
  have hmb : ∀ b ∈ m, b < 256 := by
    intro b hb
    rw [hmdef] at hb
    rcases List.mem_cons.mp hb with rfl | hb
    · exact hb0small
    · rcases List.mem_cons.mp hb with rfl | hb
      · omega
      · rcases List.mem_append.mp hb with hb | hb
        · exact hrefb b hb
        · exact hkeyb b hb
  rw [URN, hm]
  simp only [GoResult.bind]
  rw [ParseReadCapabilityURN]
  rw [if_neg (by simp [urnPrefix])]
  rw [List.take_left' (show urnPrefix.length = 9 from rfl)]
  rw [if_neg (show ¬urnPrefix ≠ urnPrefix from fun h => h rfl)]
  rw [List.drop_left' (show urnPrefix.length = 9 from rfl)]
  rw [base32_roundtrip m hmb]
  simp only [GoResult.bind]
  exact UnmarshalBinary_MarshalBinary rc b0 hm hpow hbs href hkey

theorem C8_urn_roundtrip_witness :
    (URN ⟨1024, 0, ⟨List.replicate 32 7, List.replicate 32 9⟩⟩).bind
      ParseReadCapabilityURN =
    .ok ⟨1024, 0, ⟨List.replicate 32 7, List.replicate 32 9⟩⟩ :=
  C8_urn_roundtrip ⟨1024, 0, ⟨List.replicate 32 7, List.replicate 32 9⟩⟩
    (Or.inl rfl) (by decide) (by simp) (by simp)
    (by intro b hb; rw [List.eq_of_mem_replicate hb]; omega)
    (by intro b hb; rw [List.eq_of_mem_replicate hb]; omega)

theorem seenAfter_nil (seen : List Bytes) : seenAfter seen [] = seen := rfl

theorem seenAfter_cons (seen : List Bytes) (bp : Bytes × ReferenceKeyPair)
    (rest : List (Bytes × ReferenceKeyPair)) :
    seenAfter seen (bp :: rest) =
      seenAfter (if bp.2.Reference ∈ seen then seen else bp.2.Reference :: seen) rest := by
  unfold seenAfter
  rw [List.foldl_cons]

theorem dedupFirst_append (seen : List Bytes)
    (l1 l2 : List (Bytes × ReferenceKeyPair)) :
    dedupFirst seen (l1 ++ l2) =
      dedupFirst seen l1 ++ dedupFirst (seenAfter seen l1) l2 := by
  induction l1 generalizing seen with
  | nil => rw [List.nil_append, dedupFirst, seenAfter_nil, List.nil_append]
  | cons bp rest ih =>
    rw [List.cons_append, dedupFirst, dedupFirst, seenAfter_cons]
    by_cases hmem : bp.2.Reference ∈ seen
    · rw [if_pos hmem, if_pos hmem, if_pos hmem, ih]
    · rw [if_neg hmem, if_neg hmem, if_neg hmem, ih, List.cons_append]

theorem streamLeaves_spec (P : Prims) (secret : Bytes) :
    ∀ (leaves : List Bytes) (seen : List Bytes)
      (em : List (Bytes × ReferenceKeyPair)) (ps : List ReferenceKeyPair),
      streamLeaves P secret leaves ⟨seen, em, ps⟩ =
        ⟨seenAfter seen (leaves.map (fun l => encryptLeafNode P l secret)),
         em ++ dedupFirst seen (leaves.map (fun l => encryptLeafNode P l secret)),
         ps ++ (leaves.map (fun l => encryptLeafNode P l secret)).map Prod.snd⟩ := by
  intro leaves
  induction leaves with
  | nil =>
    intro seen em ps
    simp [streamLeaves, seenAfter_nil, dedupFirst]
  | cons leaf rest ih =>
    intro seen em ps
    have hstep : streamLeaves P secret (leaf :: rest) ⟨seen, em, ps⟩ =
        streamLeaves P secret rest
          (emitStep ⟨seen, em, ps⟩ (encryptLeafNode P leaf secret)) := by
      rw [streamLeaves, streamLeaves, List.foldl_cons]
    rw [hstep]
    by_cases hmem : (encryptLeafNode P leaf secret).2.Reference ∈ seen
    · rw [show emitStep ⟨seen, em, ps⟩ (encryptLeafNode P leaf secret) =
          ⟨seen, em, ps ++ [(encryptLeafNode P leaf secret).2]⟩ from by
        unfold emitStep
        rw [if_pos hmem]]
      rw [ih seen em (ps ++ [(encryptLeafNode P leaf secret).2])]
      simp only [List.map_cons, seenAfter_cons, dedupFirst, if_pos hmem]
      simp [List.append_assoc]
    · rw [show emitStep ⟨seen, em, ps⟩ (encryptLeafNode P leaf secret) =
          ⟨(encryptLeafNode P leaf secret).2.Reference :: seen,
           em ++ [encryptLeafNode P leaf secret],
           ps ++ [(encryptLeafNode P leaf secret).2]⟩ from by
        unfold emitStep
        rw [if_neg hmem]]
      rw [ih ((encryptLeafNode P leaf secret).2.Reference :: seen)
        (em ++ [encryptLeafNode P leaf secret])
        (ps ++ [(encryptLeafNode P leaf secret).2])]
      simp only [List.map_cons, seenAfter_cons, dedupFirst, if_neg hmem]
      simp [List.append_assoc]

theorem emitFold_spec :
    ∀ (items : List (Bytes × ReferenceKeyPair)) (seen : List Bytes)
      (em : List (Bytes × ReferenceKeyPair)) (ps : List ReferenceKeyPair),
      items.foldl emitStep ⟨seen, em, ps⟩ =
        ⟨seenAfter seen items, em ++ dedupFirst seen items,
         ps ++ items.map Prod.snd⟩ := by
  intro items
  induction items with
  | nil =>
    intro seen em ps
    simp [seenAfter_nil, dedupFirst]
  | cons bp rest ih =>
    intro seen em ps
    rw [List.foldl_cons]
    by_cases hmem : bp.2.Reference ∈ seen
    · rw [show emitStep ⟨seen, em, ps⟩ bp = ⟨seen, em, ps ++ [bp.2]⟩ from by
        unfold emitStep
        rw [if_pos hmem]]
      rw [ih seen em (ps ++ [bp.2])]
      simp only [List.map_cons, seenAfter_cons, dedupFirst, if_pos hmem]
      simp [List.append_assoc]
    · rw [show emitStep ⟨seen, em, ps⟩ bp =
          ⟨bp.2.Reference :: seen, em ++ [bp], ps ++ [bp.2]⟩ from by
        unfold emitStep
        rw [if_neg hmem]]
      rw [ih (bp.2.Reference :: seen) (em ++ [bp]) (ps ++ [bp.2])]
      simp only [List.map_cons, seenAfter_cons, dedupFirst, if_neg hmem]
      simp [List.append_assoc]

theorem streamLevel_spec (P : Prims) (nodes : List Bytes) (level : Nat)
    (seen : List Bytes) (em : List (Bytes × ReferenceKeyPair)) :
    streamLevel P nodes level seen em =
      ⟨seenAfter seen (nodes.map (fun n => encryptInternalNode P n level)),
       em ++ dedupFirst seen (nodes.map (fun n => encryptInternalNode P n level)),
       (nodes.map (fun n => encryptInternalNode P n level)).map Prod.snd⟩ := by
  unfold streamLevel
  rw [← List.foldl_map (fun n => encryptInternalNode P n level) emitStep]
  rw [emitFold_spec]
  simp

theorem streamFold_spec (P : Prims) (bs : Nat) :
    ∀ (fuel level : Nat) (seen : List Bytes)
      (em : List (Bytes × ReferenceKeyPair)) (pairs : List ReferenceKeyPair),
      streamFold P bs fuel level ⟨seen, em, pairs⟩ =
        (foldPairs P bs fuel level pairs).map
          (fun r => (em ++ dedupFirst seen r.1, r.2)) := by
  intro fuel
  induction fuel with
  | zero =>
    intro level seen em pairs
    match pairs with
    | [] => rfl
    | [p] =>
      simp [streamFold, foldPairs, dedupFirst]
    | a :: b :: t =>
      simp [streamFold, foldPairs]
  | succ f ih =>
    intro level seen em pairs
    match pairs with
    | [] => rfl
    | [p] =>
      simp [streamFold, foldPairs, dedupFirst]
    | a :: b :: t =>
      simp only [streamFold]
      rw [streamLevel_spec]
      rw [ih]
      simp only [foldPairs]
      simp only [Option.map_map]
      cases hrec : foldPairs P bs f (level + 1)
          (List.map Prod.snd
            (List.map (fun n => encryptInternalNode P n (level + 1))
              (constructInternalNodes (a :: b :: t) bs))) with
      | none => rfl
      | some r =>
        simp only [Option.map_some', Function.comp]
        rw [dedupFirst_append]
        simp [List.append_assoc]

/-- The streaming encoder emits exactly the first-occurrence
deduplication of the one-shot encoder's block sequence, and computes
the same capability (no hypotheses: when the level loop would not
terminate, both are `none`). -/
theorem EncodeStream_eq_dedup_Encode (P : Prims) (content secret : Bytes)
    (bs : Nat) :
    EncodeStream P content secret bs =
      (Encode P content secret bs).map (fun r => (dedupFirst [] r.1, r.2)) := by
  unfold EncodeStream Encode
  simp only
  rw [streamLeaves_spec]
  simp only [List.nil_append]
  rw [streamFold_spec]
  cases hrec : foldPairs P bs
      ((((splitBlocks content bs).map (fun l => encryptLeafNode P l secret)).map
        Prod.snd)).length 0
      (((splitBlocks content bs).map (fun l => encryptLeafNode P l secret)).map
        Prod.snd) with
  | none => rfl
  | some r =>
    simp only [Option.map_some']
    rw [dedupFirst_append]

theorem dedupFirst_refs_nodup :
    ∀ (l : List (Bytes × ReferenceKeyPair)) (seen : List Bytes),
      ((dedupFirst seen l).map (fun bp => bp.2.Reference)).Nodup ∧
      ∀ r ∈ (dedupFirst seen l).map (fun bp => bp.2.Reference), r ∉ seen := by
  intro l
  induction l with
  | nil =>
    intro seen
    exact ⟨List.nodup_nil, by simp [dedupFirst]⟩
  | cons bp rest ih =>
    intro seen
    rw [dedupFirst]
    by_cases hmem : bp.2.Reference ∈ seen
    · rw [if_pos hmem]
      exact ih seen
    · rw [if_neg hmem]
      obtain ⟨hnd, hnotin⟩ := ih (bp.2.Reference :: seen)
      constructor
      · rw [List.map_cons, List.nodup_cons]
        refine ⟨?_, hnd⟩
        intro hcontra
        exact hnotin _ hcontra (by simp)
      · intro r hr
        rw [List.map_cons] at hr
        rcases List.mem_cons.mp hr with rfl | hr
        · exact hmem
        · intro hrs
          exact hnotin r hr (by simp [hrs])

theorem Encode_isSome (P : Prims) (B S : Bytes) (bs : Nat)
    (hn : 2 ≤ arity bs) (hb0 : 0 < bs) :
    (Encode P B S bs).isSome := by
  unfold Encode
  simp only [Option.isSome_map']
  apply foldPairs_isSome P bs hn
  · simp only [ne_eq, List.map_eq_nil_iff]
    obtain ⟨x, xs, hx⟩ := splitBlocks_ne_nil B bs
    rw [hx]
    exact List.cons_ne_nil _ _
  · omega

/-- C4: the streaming encoder never emits two blocks with the same
reference, and deduplication does not change the resulting capability:
the streaming encoder's capability equals the one-shot encoder's (which
deduplicates nothing), and its emitted sequence is exactly the
first-occurrence deduplication of the one-shot block sequence. -/
theorem C4_dedup (P : Prims) (B S : Bytes) (bs : Nat)
    (hbs : bs = 1024 ∨ bs = 32768) :
    ∃ em cap blocks, EncodeStream P B S bs = some (em, cap) ∧
      Encode P B S bs = some (blocks, cap) ∧
      (em.map (fun bp => bp.2.Reference)).Nodup ∧
      em = dedupFirst [] blocks := by
  have hn : 2 ≤ arity bs := by rcases hbs with rfl | rfl <;> decide
  have hb0 : 0 < bs := by rcases hbs with rfl | rfl <;> decide
  obtain ⟨⟨blocks, cap⟩, hr⟩ :=
    Option.isSome_iff_exists.mp (Encode_isSome P B S bs hn hb0)
  refine ⟨dedupFirst [] blocks, cap, blocks, ?_, hr, ?_, rfl⟩
  · rw [EncodeStream_eq_dedup_Encode, hr]
    rfl
  · exact (dedupFirst_refs_nodup blocks []).1

theorem C4_dedup_witness :
    ∃ em cap blocks, EncodeStream mockPrims [3] [] 1024 = some (em, cap) ∧
      Encode mockPrims [3] [] 1024 = some (blocks, cap) ∧
      (em.map (fun bp => bp.2.Reference)).Nodup ∧
      em = dedupFirst [] blocks :=
  C4_dedup mockPrims [3] [] 1024 (Or.inl rfl)

/-- C10 (amended): the streaming encoder produces the same capability
as one-shot `Encode`, and emits the one-shot block sequence with
duplicate references removed, keeping first occurrences — rather than
exactly the same sequence. -/
theorem C10_streaming_dedups_oneshot (P : Prims) (B S : Bytes) (bs : Nat) :
    EncodeStream P B S bs =
      (Encode P B S bs).map (fun r => (dedupFirst [] r.1, r.2)) :=
  EncodeStream_eq_dedup_Encode P B S bs

set_option maxRecDepth 4000 in
/-- C10 as stated is false: on content equal to one full block of
ISO-7816-4 padding bytes, the final padding leaf duplicates the content
leaf, so the streaming encoder emits two blocks where one-shot `Encode`
returns three. -/
theorem C10_counterexample :
    (EncodeStream mockPrims (0x80 :: List.replicate 127 0) [] 128).map
        (fun r => r.1.map Prod.fst) ≠
      (Encode mockPrims (0x80 :: List.replicate 127 0) [] 128).map
        (fun r => r.1.map Prod.fst) := by
  decide

theorem xorKeystream_length (f : Nat → Nat) :
    ∀ (i : Nat) (l : Bytes), (xorKeystream f i l).length = l.length := by
  intro i l
  induction l generalizing i with
  | nil => rfl
  | cons b rest ih =>
    rw [xorKeystream]
    simp only [List.length_cons]
    rw [ih]

theorem xorKeystream_involution (f : Nat → Nat) :
    ∀ (i : Nat) (l : Bytes), xorKeystream f i (xorKeystream f i l) = l := by
  intro i l
  induction l generalizing i with
  | nil => rfl
  | cons b rest ih =>
    rw [xorKeystream, xorKeystream]
    rw [ih]
    congr 1
    rw [Nat.xor_assoc, Nat.xor_self, Nat.xor_zero]

theorem lookupFetch_ok (P : Prims) (blocks : List Bytes) (b : Bytes)
    (hmem : b ∈ blocks)
    (hinj : ∀ b1 b2 : Bytes, P.hash b1 = P.hash b2 → b1 = b2) :
    lookupFetch P blocks (P.hash b) = .ok b := by
  unfold lookupFetch
  have hsome : (blocks.find? (fun x => P.hash x == P.hash b)).isSome := by
    rw [List.find?_isSome]
    exact ⟨b, hmem, by simp⟩
  obtain ⟨b', hb'⟩ := Option.isSome_iff_exists.mp hsome
  have heq : P.hash b' = P.hash b := by
    have := List.find?_some hb'
    simpa using this
  rw [hb', hinj b' b heq]

theorem dereferenceNode_encrypt_leaf (P : Prims) (fetch : FetchFunc)
    (plain secret : Bytes) (bs : Nat) (hlen : plain.length = bs)
    (hfetch : fetch (encryptLeafNode P plain secret).2.Reference =
      .ok (encryptLeafNode P plain secret).1) :
    dereferenceNode P fetch (encryptLeafNode P plain secret).2 0 bs = .ok plain := by
  unfold dereferenceNode
  rw [hfetch]
  simp only [GoResult.bind]
  rw [if_neg (by
    simp only [encryptLeafNode, xorKeystream_length]
    omega)]
  rw [if_neg (by
    simp only [encryptLeafNode]
    exact fun h => h rfl)]
  congr 1
  show xorKeystream
    (P.ks (encryptLeafNode P plain secret).2.Key ((0 % 256) :: List.replicate 11 0)) 0
    (encryptLeafNode P plain secret).1 = plain
  have hnonce : ((0 % 256) :: List.replicate 11 0 : Bytes) = List.replicate 12 0 := rfl
  rw [hnonce]
  show xorKeystream (P.ks (P.keyedHash secret plain) (List.replicate 12 0)) 0
    (xorKeystream (P.ks (P.keyedHash secret plain) (List.replicate 12 0)) 0 plain) = plain
  exact xorKeystream_involution _ 0 plain

theorem dereferenceNode_encrypt_internal (P : Prims) (fetch : FetchFunc)
    (node : Bytes) (level bs : Nat) (hlen : node.length = bs)
    (hfetch : fetch (encryptInternalNode P node level).2.Reference =
      .ok (encryptInternalNode P node level).1) :
    dereferenceNode P fetch (encryptInternalNode P node level).2 level bs = .ok node := by
  unfold dereferenceNode
  rw [hfetch]
  simp only [GoResult.bind]
  rw [if_neg (by
    simp only [encryptInternalNode, xorKeystream_length]
    omega)]
  rw [if_neg (by
    simp only [encryptInternalNode]
    exact fun h => h rfl)]
  congr 1
  show xorKeystream
    (P.ks (encryptInternalNode P node level).2.Key ((level % 256) :: List.replicate 11 0)) 0
    (encryptInternalNode P node level).1 = node
  show xorKeystream (P.ks (P.hash node) ((level % 256) :: List.replicate 11 0)) 0
    (xorKeystream (P.ks (P.hash node) ((level % 256) :: List.replicate 11 0)) 0 node) = node
  exact xorKeystream_involution _ 0 node

theorem decodeNodeGo_fuel :
    ∀ (f1 f2 : Nat) (l : Bytes), l.length ≤ f1 → l.length ≤ f2 →
      decodeNodeGo f1 l = decodeNodeGo f2 l := by
  intro f1
  induction f1 with
  | zero =>
    intro f2 l h1 h2
    have : l = [] := List.eq_nil_of_length_eq_zero (by omega)
    subst this
    cases f2 <;> rfl
  | succ g ih =>
    intro f2 l h1 h2
    cases l with
    | nil => cases f2 <;> rfl
    | cons a t =>
      cases f2 with
      | zero => simp at h2
      | succ h =>
        simp only [List.length_cons] at h1 h2
        rw [decodeNodeGo, decodeNodeGo]
        by_cases h32 : (a :: t).length < 32
        · rw [if_pos h32, if_pos h32]
        · rw [if_neg h32, if_neg h32]
          by_cases hzero : (a :: t).take 32 = zeroRef
          · rw [if_pos hzero, if_pos hzero]
          · rw [if_neg hzero, if_neg hzero]
            by_cases h64 : (a :: t).length < 64
            · rw [if_pos h64, if_pos h64]
            · rw [if_neg h64, if_neg h64]
              rw [ih h ((a :: t).drop 64) (by simp; omega) (by simp; omega)]

theorem decodeNodeLoop_ne_nil (data : Bytes) (h : data ≠ []) :
    decodeNodeLoop data =
      if data.length < 32 then .panicked
      else if data.take 32 = zeroRef then
        if (data.drop 32).all (· = 0) then .ok [] else .err .invalidPadding
      else if data.length < 64 then .panicked
      else
        (decodeNodeLoop (data.drop 64)).bind fun rest =>
          .ok (⟨data.take 32, (data.drop 32).take 32⟩ :: rest) := by
  cases data with
  | nil => exact absurd rfl h
  | cons a t =>
    show decodeNodeGo (a :: t).length (a :: t) = _
    conv_lhs => rw [show (a :: t).length = t.length + 1 from rfl]
    rw [decodeNodeGo]
    by_cases h32 : (a :: t).length < 32
    · rw [if_pos h32, if_pos h32]
    · rw [if_neg h32, if_neg h32]
      by_cases hzero : (a :: t).take 32 = zeroRef
      · rw [if_pos hzero, if_pos hzero]
      · rw [if_neg hzero, if_neg hzero]
        by_cases h64 : (a :: t).length < 64
        · rw [if_pos h64, if_pos h64]
        · rw [if_neg h64, if_neg h64]
          rw [decodeNodeGo_fuel t.length ((a :: t).drop 64).length
            ((a :: t).drop 64)
            (by simp only [List.length_drop, List.length_cons]; omega) (by simp)]
          rfl

theorem serializePairs_cons (p : ReferenceKeyPair) (rest : List ReferenceKeyPair) :
    serializePairs (p :: rest) = (p.Reference ++ p.Key) ++ serializePairs rest := by
  simp [serializePairs]

theorem serializePairs_length (ps : List ReferenceKeyPair)
    (h : ∀ p ∈ ps, p.Reference.length = 32 ∧ p.Key.length = 32) :
    (serializePairs ps).length = 64 * ps.length := by
  induction ps with
  | nil => rfl
  | cons p rest ih =>
    rw [serializePairs_cons, List.length_append, List.length_append]
    obtain ⟨h1, h2⟩ := h p (by simp)
    rw [h1, h2, ih (fun q hq => h q (by simp [hq]))]
    simp only [List.length_cons]
    ring

theorem decodeNodeLoop_serialize :
    ∀ (c : List ReferenceKeyPair) (m : Nat),
      (∀ p ∈ c, p.Reference.length = 32 ∧ p.Key.length = 32 ∧
        p.Reference ≠ zeroRef) →
      decodeNodeLoop (serializePairs c ++ List.replicate (64 * m) 0) = .ok c := by
  intro c
  induction c with
  | nil =>
    intro m _
    show decodeNodeLoop (([] : Bytes) ++ List.replicate (64 * m) 0) = .ok []
    rw [List.nil_append]
    cases m with
    | zero => rfl
    | succ k =>
      rw [decodeNodeLoop_ne_nil _ (by simp)]
      rw [if_neg (by simp; omega)]
      rw [if_pos (by
        rw [List.take_replicate]
        rw [show min 32 (64 * (k + 1)) = 32 from by omega]
        rfl)]
      rw [if_pos (by
        rw [List.drop_replicate]
        simp)]
  | cons p rest ih =>
    intro m hgood
    obtain ⟨href, hkey, hnz⟩ := hgood p (by simp)
    have hform : serializePairs (p :: rest) ++ List.replicate (64 * m) 0 =
        (p.Reference ++ p.Key) ++ (serializePairs rest ++ List.replicate (64 * m) 0) := by
      rw [serializePairs_cons, List.append_assoc]
    have hlen64 : (p.Reference ++ p.Key).length = 64 := by
      rw [List.length_append, href, hkey]
    have hrestgood : ∀ q ∈ rest, q.Reference.length = 32 ∧ q.Key.length = 32 ∧
        q.Reference ≠ zeroRef := fun q hq => hgood q (by simp [hq])
    have hreclen : (serializePairs rest ++ List.replicate (64 * m) 0).length =
        64 * rest.length + 64 * m := by
      rw [List.length_append, List.length_replicate,
        serializePairs_length rest (fun q hq => ⟨(hrestgood q hq).1, (hrestgood q hq).2.1⟩)]
    rw [hform]
    rw [decodeNodeLoop_ne_nil _ (by
      intro hfalse
      have := congrArg List.length hfalse
      rw [List.length_append, hlen64] at this
      simp at this)]
    have htotlen : ((p.Reference ++ p.Key) ++
        (serializePairs rest ++ List.replicate (64 * m) 0)).length =
        64 + (64 * rest.length + 64 * m) := by
      rw [List.length_append, hlen64, hreclen]
    rw [if_neg (by omega)]
    have htake32 : ((p.Reference ++ p.Key) ++
        (serializePairs rest ++ List.replicate (64 * m) 0)).take 32 = p.Reference := by
      rw [List.append_assoc, List.take_left' href]
    rw [htake32, if_neg hnz, if_neg (by omega)]
    have hdrop64 : ((p.Reference ++ p.Key) ++
        (serializePairs rest ++ List.replicate (64 * m) 0)).drop 64 =
        serializePairs rest ++ List.replicate (64 * m) 0 :=
      List.drop_left' hlen64
    have hdrop32 : ((p.Reference ++ p.Key) ++
        (serializePairs rest ++ List.replicate (64 * m) 0)).drop 32 =
        p.Key ++ (serializePairs rest ++ List.replicate (64 * m) 0) := by
      rw [List.append_assoc, List.drop_left' href]
    rw [hdrop64, hdrop32, List.take_left' hkey, ih m hrestgood]
    rfl

theorem appendPadWithZeroes_eq {buf : Bytes} {n : Nat} (h : buf.length ≤ n) :
    appendPadWithZeroes buf n = buf ++ List.replicate (n - buf.length) 0 := by
  unfold appendPadWithZeroes
  by_cases hc : n ≤ buf.length
  · rw [if_pos hc, show n - buf.length = 0 from by omega]
    simp
  · rw [if_neg hc]

theorem decodeInternalNode_serialize (c : List ReferenceKeyPair) (bs : Nat)
    (harity : 64 * arity bs = bs) (hc_len : c.length ≤ arity bs)
    (hgoodc : ∀ p ∈ c, p.Reference.length = 32 ∧ p.Key.length = 32 ∧
      p.Reference ≠ zeroRef) :
    decodeInternalNode (appendPadWithZeroes (serializePairs c) bs) bs = .ok c := by
  have hserlen : (serializePairs c).length = 64 * c.length :=
    serializePairs_length c (fun q hq => ⟨(hgoodc q hq).1, (hgoodc q hq).2.1⟩)
  have hle : (serializePairs c).length ≤ bs := by
    rw [hserlen]
    omega
  rw [appendPadWithZeroes_eq hle]
  have hrep : bs - (serializePairs c).length = 64 * (arity bs - c.length) := by
    rw [hserlen]
    omega
  rw [hrep]
  unfold decodeInternalNode
  rw [if_neg (by
    rw [List.length_append, List.length_replicate, hserlen]
    omega)]
  exact decodeNodeLoop_serialize c (arity bs - c.length) hgoodc

theorem chunkList_mem_le {α : Type} {n : Nat} (hn : 0 < n) :
    ∀ (l : List α), ∀ c ∈ chunkList n l, c.length ≤ n := by
  intro l
  refine chunkList_ind n (fun l => ∀ c ∈ chunkList n l, c.length ≤ n) ?_ ?_ ?_ l
  · intro c hc
    rw [chunkList_nil] at hc
    simp at hc
  · intro a t hpos ih c hc
    rw [chunkList_cons, if_pos hpos] at hc
    rcases List.mem_cons.mp hc with rfl | hc
    · rw [List.length_take]
      omega
    · exact ih c hc
  · intro a t hpos
    exact absurd hn hpos

theorem chunkList_mem_ne_nil {α : Type} {n : Nat} :
    ∀ (l : List α), ∀ c ∈ chunkList n l, c ≠ [] := by
  intro l
  refine chunkList_ind n (fun l => ∀ c ∈ chunkList n l, c ≠ []) ?_ ?_ ?_ l
  · intro c hc
    rw [chunkList_nil] at hc
    simp at hc
  · intro a t hpos ih c hc
    rw [chunkList_cons, if_pos hpos] at hc
    rcases List.mem_cons.mp hc with rfl | hc
    · rw [List.take_cons hpos]
      exact List.cons_ne_nil _ _
    · exact ih c hc
  · intro a t hpos c hc
    rw [chunkList_cons, if_neg hpos] at hc
    rcases List.mem_singleton.mp hc with rfl
    exact List.cons_ne_nil _ _

theorem chunkList_mem_subset {α : Type} {n : Nat} :
    ∀ (l : List α), ∀ c ∈ chunkList n l, ∀ x ∈ c, x ∈ l := by
  intro l
  refine chunkList_ind n (fun l => ∀ c ∈ chunkList n l, ∀ x ∈ c, x ∈ l) ?_ ?_ ?_ l
  · intro c hc
    rw [chunkList_nil] at hc
    simp at hc
  · intro a t hpos ih c hc x hx
    rw [chunkList_cons, if_pos hpos] at hc
    rcases List.mem_cons.mp hc with rfl | hc
    · exact List.take_subset _ _ hx
    · exact List.drop_subset _ _ (ih c hc x hx)
  · intro a t hpos c hc x hx
    rw [chunkList_cons, if_neg hpos] at hc
    rcases List.mem_singleton.mp hc with rfl
    exact hx

theorem chunkList_forall2 {α β : Type} {R : α → β → Prop} {n : Nat} (hn : 0 < n) :
    ∀ (l1 : List α) (l2 : List β), List.Forall₂ R l1 l2 →
      List.Forall₂ (List.Forall₂ R) (chunkList n l1) (chunkList n l2) := by
  intro l1
  refine chunkList_ind n (fun l1 => ∀ (l2 : List β), List.Forall₂ R l1 l2 →
    List.Forall₂ (List.Forall₂ R) (chunkList n l1) (chunkList n l2)) ?_ ?_ ?_ l1
  · intro l2 h
    cases h
    rw [chunkList_nil, chunkList_nil]
    exact List.Forall₂.nil
  · intro a t hpos ih l2 h
    cases h with
    | cons hab hrest =>
      rename_i b l2t
      rw [chunkList_cons, if_pos hpos, chunkList_cons, if_pos hpos]
      exact List.Forall₂.cons
        (List.forall₂_take n (List.Forall₂.cons hab hrest))
        (ih _ (List.forall₂_drop n (List.Forall₂.cons hab hrest)))
  · intro a t hpos
    exact absurd hn hpos

theorem decodeChildrenGo_ok {f : ReferenceKeyPair → GoResult Bytes} :
    ∀ {c : List ReferenceKeyPair} {xs : List Bytes},
      List.Forall₂ (fun p x => f p = .ok x) c xs →
      decodeChildrenGo f c = .ok xs.flatten := by
  intro c xs h
  induction h with
  | nil => rfl
  | cons hpx hrest ih =>
    rw [decodeChildrenGo, hpx, ih]
    rfl

theorem forall2_map_left {α β : Type} {R : β → α → Prop} {f : α → β} :
    ∀ (l : List α), (∀ x ∈ l, R (f x) x) → List.Forall₂ R (l.map f) l := by
  intro l
  induction l with
  | nil => intro _; exact List.Forall₂.nil
  | cons a t ih =>
    intro h
    rw [List.map_cons]
    exact List.Forall₂.cons (h a (by simp)) (ih (fun x hx => h x (by simp [hx])))

theorem splitBlocks_flatten {B : Bytes} {bs : Nat} (h : 0 < bs) :
    (splitBlocks B bs).flatten =
      B ++ 0x80 :: List.replicate (bs - B.length % bs - 1) 0 := by
  refine splitBlocks_ind bs (fun B => (splitBlocks B bs).flatten =
    B ++ 0x80 :: List.replicate (bs - B.length % bs - 1) 0) ?_ ?_ B
  · intro content hc ih
    rw [splitBlocks_eq, if_pos hc, List.flatten_cons, ih]
    rw [← List.append_assoc, List.take_append_drop]
    have hmod : (content.drop bs).length % bs = content.length % bs := by
      rw [List.length_drop]
      conv_rhs => rw [show content.length = (content.length - bs) + bs from by omega]
      rw [Nat.add_mod_right]
    rw [hmod]
  · intro content hc
    have h2 : content.length < bs := by
      rcases Nat.lt_or_ge content.length bs with hl | hg
      · exact hl
      · exact absurd ⟨h, hg⟩ hc
    rw [splitBlocks_eq, if_neg hc]
    unfold appendPadInput
    rw [if_neg (by omega)]
    rw [List.flatten_cons]
    rw [Nat.mod_eq_of_lt h2]
    simp

theorem removePadding_append_pad {B : Bytes} {bs m : Nat}
    (hm : m < bs) (hlen : (B ++ 0x80 :: List.replicate m 0).length % bs = 0) :
    removePadding (B ++ 0x80 :: List.replicate m 0) bs = .ok B := by
  unfold removePadding
  have hl : (B ++ 0x80 :: List.replicate m 0).length = B.length + 1 + m := by
    simp only [List.length_append, List.length_cons, List.length_replicate]
    omega
  rw [if_neg (by
    intro hcontra
    rw [Nat.mod_eq_of_lt hcontra, hl] at hlen
    omega)]
  rw [List.reverse_append, List.reverse_cons, List.reverse_replicate]
  rw [List.append_assoc, List.singleton_append]
  rw [unpadRev_zeros _ hm]
  simp

theorem flatten_map_flatten {α : Type} (L : List (List (List α))) :
    (L.map List.flatten).flatten = L.flatten.flatten := by
  induction L with
  | nil => rfl
  | cons c rest ih => simp [List.flatten_append, ih]

theorem decodeRec_internal_chunk (P : Prims) (bs : Nat) (fetchList : List Bytes)
    (hgood : GoodPrims P)
    (hinj : ∀ b1 b2 : Bytes, P.hash b1 = P.hash b2 → b1 = b2)
    (harity : 64 * arity bs = bs)
    (level : Nat) (c : List ReferenceKeyPair) (cx : List Bytes)
    (hF2 : List.Forall₂
      (fun p x => decodeRec P (lookupFetch P fetchList) bs level p = .ok x) c cx)
    (hclen : c.length ≤ arity bs)
    (hcgood : ∀ p ∈ c, p.Reference.length = 32 ∧ p.Key.length = 32 ∧
      p.Reference ≠ zeroRef)
    (hblk : (encryptInternalNode P
        (appendPadWithZeroes (serializePairs c) bs) (level + 1)).1 ∈ fetchList) :
    decodeRec P (lookupFetch P fetchList) bs (level + 1)
      (encryptInternalNode P
        (appendPadWithZeroes (serializePairs c) bs) (level + 1)).2 =
      .ok cx.flatten := by
  have hserlen : (serializePairs c).length = 64 * c.length :=
    serializePairs_length c (fun q hq => ⟨(hcgood q hq).1, (hcgood q hq).2.1⟩)
  have hnodelen : (appendPadWithZeroes (serializePairs c) bs).length = bs := by
    rw [appendPadWithZeroes_eq (by rw [hserlen]; omega)]
    rw [List.length_append, List.length_replicate, hserlen]
    omega
  have hfetch : lookupFetch P fetchList
      (encryptInternalNode P
        (appendPadWithZeroes (serializePairs c) bs) (level + 1)).2.Reference =
      .ok (encryptInternalNode P
        (appendPadWithZeroes (serializePairs c) bs) (level + 1)).1 := by
    show lookupFetch P fetchList (P.hash _) = _
    exact lookupFetch_ok P fetchList _ hblk hinj
  rw [decodeRec]
  rw [dereferenceNode_encrypt_internal P _ _ _ _ hnodelen hfetch]
  simp only [GoResult.bind]
  rw [decodeInternalNode_serialize c bs harity hclen hcgood]
  simp only [GoResult.bind]
  exact decodeChildrenGo_ok hF2

theorem forall2_map_imp {α β γ δ : Type} {R : α → β → Prop} {S : γ → δ → Prop}
    {f : α → γ} {g : β → δ} :
    ∀ {l1 : List α} {l2 : List β}, List.Forall₂ R l1 l2 →
      (∀ a ∈ l1, ∀ b, R a b → S (f a) (g b)) →
      List.Forall₂ S (l1.map f) (l2.map g) := by
  intro l1 l2 h
  induction h with
  | nil => intro _; exact List.Forall₂.nil
  | cons hab hrest ih =>
    intro hcond
    rename_i a b t1 t2
    rw [List.map_cons, List.map_cons]
    exact List.Forall₂.cons (hcond a (by simp) b hab)
      (ih (fun x hx y hy => hcond x (by simp [hx]) y hy))

theorem foldPairs_decode (P : Prims) (bs : Nat) (fetchList : List Bytes)
    (hgood : GoodPrims P)
    (hinj : ∀ b1 b2 : Bytes, P.hash b1 = P.hash b2 → b1 = b2)
    (hnz : ∀ b : Bytes, P.hash b ≠ zeroRef)
    (harity : 64 * arity bs = bs) (harity2 : 2 ≤ arity bs) :
    ∀ (fuel level : Nat) (ps : List ReferenceKeyPair) (xs : List Bytes)
      (blks : List (Bytes × ReferenceKeyPair)) (L : Nat) (root : ReferenceKeyPair),
      foldPairs P bs fuel level ps = some (blks, L, root) →
      List.Forall₂
        (fun p x => decodeRec P (lookupFetch P fetchList) bs level p = .ok x) ps xs →
      (∀ p ∈ ps, p.Reference.length = 32 ∧ p.Key.length = 32 ∧
        p.Reference ≠ zeroRef) →
      (∀ bp ∈ blks, bp.1 ∈ fetchList) →
      decodeRec P (lookupFetch P fetchList) bs L root = .ok xs.flatten := by
  intro fuel
  induction fuel with
  | zero =>
    intro level ps xs blks L root hfold hF2 hpsgood hsub
    match ps, hfold with
    | [p], hfold =>
      simp only [foldPairs] at hfold
      obtain ⟨h1, h2, h3⟩ : [] = blks ∧ level = L ∧ p = root := by
        have := Option.some_injective _ hfold
        exact ⟨congrArg Prod.fst this,
          congrArg (Prod.fst ∘ Prod.snd) this, congrArg (Prod.snd ∘ Prod.snd) this⟩
      subst h2
      subst h3
      cases hF2 with
      | cons hx hnil =>
        cases hnil
        rw [hx]
        simp
  | succ f ih =>
    intro level ps xs blks L root hfold hF2 hpsgood hsub
    match ps, hfold with
    | [p], hfold =>
      simp only [foldPairs] at hfold
      obtain ⟨h1, h2, h3⟩ : [] = blks ∧ level = L ∧ p = root := by
        have := Option.some_injective _ hfold
        exact ⟨congrArg Prod.fst this,
          congrArg (Prod.fst ∘ Prod.snd) this, congrArg (Prod.snd ∘ Prod.snd) this⟩
      subst h2
      subst h3
      cases hF2 with
      | cons hx hnil =>
        cases hnil
        rw [hx]
        simp
    | a :: b :: t, hfold =>
      simp only [foldPairs] at hfold
      cases hrec : foldPairs P bs f (level + 1)
          (List.map Prod.snd
            (List.map (fun n => encryptInternalNode P n (level + 1))
              (constructInternalNodes (a :: b :: t) bs))) with
      | none =>
        rw [hrec] at hfold
        simp at hfold
      | some r =>
        rw [hrec] at hfold
        simp only [Option.map_some'] at hfold
        obtain ⟨hblks, hL, hroot⟩ :
            (List.map (fun n => encryptInternalNode P n (level + 1))
              (constructInternalNodes (a :: b :: t) bs)) ++ r.1 = blks ∧
            r.2.1 = L ∧ r.2.2 = root := by
          have := Option.some_injective _ hfold
          exact ⟨congrArg Prod.fst this,
            congrArg (Prod.fst ∘ Prod.snd) this, congrArg (Prod.snd ∘ Prod.snd) this⟩
        subst hL
        subst hroot
        have harity0 : 0 < arity bs := by omega
        have hF2chunks := chunkList_forall2 harity0 _ _ hF2
        have hF2new : List.Forall₂
            (fun p x => decodeRec P (lookupFetch P fetchList) bs (level + 1) p = .ok x)
            (List.map Prod.snd
              (List.map (fun n => encryptInternalNode P n (level + 1))
                (constructInternalNodes (a :: b :: t) bs)))
            ((chunkList (arity bs) xs).map List.flatten) := by
          unfold constructInternalNodes
          rw [List.map_map, List.map_map]
          refine forall2_map_imp hF2chunks ?_
          intro c hc cx hS
          show decodeRec P (lookupFetch P fetchList) bs (level + 1)
            (encryptInternalNode P
              (appendPadWithZeroes (serializePairs c) bs) (level + 1)).2 =
            .ok cx.flatten
          refine decodeRec_internal_chunk P bs fetchList hgood hinj harity level
            c cx hS (chunkList_mem_le harity0 _ c hc)
            (fun p hp => hpsgood p (chunkList_mem_subset _ c hc p hp)) ?_
          apply hsub
          rw [← hblks]
          apply List.mem_append_left
          unfold constructInternalNodes
          rw [List.map_map]
          exact List.mem_map.mpr ⟨c, hc, rfl⟩
        have hnewgood : ∀ p ∈ (List.map Prod.snd
            (List.map (fun n => encryptInternalNode P n (level + 1))
              (constructInternalNodes (a :: b :: t) bs))),
            p.Reference.length = 32 ∧ p.Key.length = 32 ∧ p.Reference ≠ zeroRef := by
          intro p hp
          rw [List.map_map] at hp
          obtain ⟨node, _, hpeq⟩ := List.mem_map.mp hp
          rw [← hpeq]
          exact ⟨hgood.2 _, hgood.2 _, hnz _⟩
        have hsub2 : ∀ bp ∈ r.1, bp.1 ∈ fetchList := by
          intro bp hbp
          exact hsub bp (by rw [← hblks]; exact List.mem_append_right _ hbp)
        have := ih (level + 1) _ _ r.1 _ _ hrec hF2new hnewgood hsub2
        rw [this]
        rw [flatten_map_flatten, chunkList_flatten _ harity0]

theorem foldPairs_root (P : Prims) (bs : Nat)
    (hgood : GoodPrims P) (harity : 64 * arity bs = bs) (harity2 : 2 ≤ arity bs) :
    ∀ (fuel level : Nat) (ps : List ReferenceKeyPair)
      (blks : List (Bytes × ReferenceKeyPair)) (L : Nat) (root : ReferenceKeyPair),
      foldPairs P bs fuel level ps = some (blks, L, root) →
      (∀ p ∈ ps, p.Reference.length = 32 ∧ p.Key.length = 32) →
      (ps = [root] ∧ L = level ∧ blks = []) ∨
      (∃ node, node.length = bs ∧ root = (encryptInternalNode P node L).2 ∧
        (encryptInternalNode P node L).1 ∈ blks.map Prod.fst) := by
  intro fuel
  induction fuel with
  | zero =>
    intro level ps blks L root hfold hpsgood
    match ps, hfold with
    | [p], hfold =>
      left
      simp only [foldPairs] at hfold
      obtain ⟨h1, h2, h3⟩ : blks = [] ∧ L = level ∧ root = p := by
        have := Option.some_injective _ hfold
        exact ⟨(congrArg Prod.fst this).symm, (congrArg (Prod.fst ∘ Prod.snd) this).symm,
          (congrArg (Prod.snd ∘ Prod.snd) this).symm⟩
      subst h1
      subst h2
      subst h3
      exact ⟨rfl, rfl, rfl⟩
  | succ f ih =>
    intro level ps blks L root hfold hpsgood
    match ps, hfold with
    | [p], hfold =>
      left
      simp only [foldPairs] at hfold
      obtain ⟨h1, h2, h3⟩ : blks = [] ∧ L = level ∧ root = p := by
        have := Option.some_injective _ hfold
        exact ⟨(congrArg Prod.fst this).symm, (congrArg (Prod.fst ∘ Prod.snd) this).symm,
          (congrArg (Prod.snd ∘ Prod.snd) this).symm⟩
      subst h1
      subst h2
      subst h3
      exact ⟨rfl, rfl, rfl⟩
    | a :: b :: t, hfold =>
      right
      simp only [foldPairs] at hfold
      cases hrec : foldPairs P bs f (level + 1)
          (List.map Prod.snd
            (List.map (fun n => encryptInternalNode P n (level + 1))
              (constructInternalNodes (a :: b :: t) bs))) with
      | none =>
        rw [hrec] at hfold
        simp at hfold
      | some r =>
        rw [hrec] at hfold
        simp only [Option.map_some'] at hfold
        obtain ⟨hblks, hL, hroot⟩ :
            (List.map (fun n => encryptInternalNode P n (level + 1))
              (constructInternalNodes (a :: b :: t) bs)) ++ r.1 = blks ∧
            r.2.1 = L ∧ r.2.2 = root := by
          have := Option.some_injective _ hfold
          exact ⟨congrArg Prod.fst this,
            congrArg (Prod.fst ∘ Prod.snd) this, congrArg (Prod.snd ∘ Prod.snd) this⟩
        subst hL
        subst hroot
        have hnode_len : ∀ node ∈ constructInternalNodes (a :: b :: t) bs,
            node.length = bs := by
          intro node hn
          unfold constructInternalNodes at hn
          obtain ⟨c, hc, hceq⟩ := List.mem_map.mp hn
          have hclen := chunkList_mem_le (by omega) _ c hc
          have hcgood : ∀ q ∈ c, q.Reference.length = 32 ∧ q.Key.length = 32 :=
            fun q hq => hpsgood q (chunkList_mem_subset _ c hc q hq)
          rw [← hceq, appendPadWithZeroes_eq (by
            rw [serializePairs_length c hcgood]
            omega)]
          rw [List.length_append, List.length_replicate,
            serializePairs_length c hcgood]
          omega
        have hnewgood : ∀ p ∈ (List.map Prod.snd
            (List.map (fun n => encryptInternalNode P n (level + 1))
              (constructInternalNodes (a :: b :: t) bs))),
            p.Reference.length = 32 ∧ p.Key.length = 32 := by
          intro p hp
          rw [List.map_map] at hp
          obtain ⟨node, _, hpeq⟩ := List.mem_map.mp hp
          rw [← hpeq]
          exact ⟨hgood.2 _, hgood.2 _⟩
        rcases ih (level + 1) _ r.1 _ _ hrec hnewgood with ⟨hsing, hLlv, hrnil⟩ | hdeep
        · -- the next level was already the single root
          obtain ⟨node, hnmem, hneq⟩ : ∃ node,
              node ∈ constructInternalNodes (a :: b :: t) bs ∧
              (encryptInternalNode P node (level + 1)).2 = r.2.2 := by
            have hlen1 := congrArg List.length hsing
            simp only [List.length_map, List.length_cons, List.length_singleton] at hlen1
            match hnodes : constructInternalNodes (a :: b :: t) bs, hlen1 with
            | [n], _ =>
              refine ⟨n, by simp, ?_⟩
              rw [hnodes] at hsing
              simp at hsing
              rw [hsing]
          refine ⟨node, hnode_len node hnmem, ?_, ?_⟩
          · rw [hLlv, ← hneq]
          · rw [← hblks, hLlv]
            rw [List.map_append]
            apply List.mem_append_left
            rw [List.map_map]
            exact List.mem_map.mpr ⟨node, hnmem, rfl⟩
        · obtain ⟨node, hnlen, hneq, hnmem⟩ := hdeep
          refine ⟨node, hnlen, hneq, ?_⟩
          rw [← hblks, List.map_append]
          exact List.mem_append_right _ hnmem

/-- C1: decoding the capability produced by one-shot `Encode`, with a
fetch function serving exactly the emitted block set, returns the
original content. The abstract hash is assumed collision-free and
never all-zero (true of the Blake2b-256 idealization the format relies
on), with 32-byte outputs. -/
theorem C1_roundtrip (P : Prims) (B S : Bytes) (bs : Nat)
    (hbs : bs = 1024 ∨ bs = 32768)
    (hgood : GoodPrims P)
    (hinj : ∀ b1 b2 : Bytes, P.hash b1 = P.hash b2 → b1 = b2)
    (hnz : ∀ b : Bytes, P.hash b ≠ zeroRef) :
    ∃ blocksAnn cap, Encode P B S bs = some (blocksAnn, cap) ∧
      DecodeRecursive P (lookupFetch P (blocksAnn.map Prod.fst)) cap = .ok B := by
  have harity : 64 * arity bs = bs := by rcases hbs with rfl | rfl <;> decide
  have harity2 : 2 ≤ arity bs := by rcases hbs with rfl | rfl <;> decide
  have hb0 : 0 < bs := by rcases hbs with rfl | rfl <;> decide
  set leaves := splitBlocks B bs with hleaves
  set leafEncs := leaves.map (fun l => encryptLeafNode P l S) with hleafEncs
  set pairs := leafEncs.map Prod.snd with hpairs
  have hpne : pairs ≠ [] := by
    rw [hpairs, hleafEncs]
    simp only [ne_eq, List.map_eq_nil_iff]
    obtain ⟨x, xs, hx⟩ := splitBlocks_ne_nil B bs
    rw [hleaves, hx]
    exact List.cons_ne_nil _ _
  obtain ⟨r, hr⟩ := Option.isSome_iff_exists.mp
    (foldPairs_isSome P bs harity2 pairs.length 0 pairs hpne (by omega))
  refine ⟨leafEncs ++ r.1, ⟨bs, r.2.1, r.2.2⟩, ?_, ?_⟩
  · unfold Encode
    simp only
    rw [← hleaves, ← hleafEncs, ← hpairs, hr]
    rfl
  · set fetchList := (leafEncs ++ r.1).map Prod.fst with hfetchList
    have hpsgood : ∀ p ∈ pairs, p.Reference.length = 32 ∧ p.Key.length = 32 ∧
        p.Reference ≠ zeroRef := by
      intro p hp
      rw [hpairs, hleafEncs, List.map_map] at hp
      obtain ⟨leaf, _, hpeq⟩ := List.mem_map.mp hp
      rw [← hpeq]
      exact ⟨hgood.2 _, hgood.1 _ _, hnz _⟩
    have hF2base : List.Forall₂
        (fun p x => decodeRec P (lookupFetch P fetchList) bs 0 p = .ok x)
        pairs leaves := by
      rw [hpairs, hleafEncs, List.map_map]
      refine forall2_map_left leaves ?_
      intro leaf hleaf
      show decodeRec P (lookupFetch P fetchList) bs 0
        (encryptLeafNode P leaf S).2 = .ok leaf
      rw [decodeRec]
      rw [dereferenceNode_encrypt_leaf P _ leaf S bs
        (splitBlocks_mem_length hb0 leaf hleaf)
        (by
          show lookupFetch P fetchList (P.hash _) = _
          refine lookupFetch_ok P fetchList _ ?_ hinj
          rw [hfetchList, List.map_append]
          apply List.mem_append_left
          rw [hleafEncs, List.map_map]
          exact List.mem_map.mpr ⟨leaf, hleaf, rfl⟩)]
      rfl
    have hsub : ∀ bp ∈ r.1, bp.1 ∈ fetchList := by
      intro bp hbp
      rw [hfetchList, List.map_append]
      exact List.mem_append_right _ (List.mem_map.mpr ⟨bp, hbp, rfl⟩)
    have hdec : decodeRec P (lookupFetch P fetchList) bs r.2.1 r.2.2 =
        .ok leaves.flatten :=
      foldPairs_decode P bs fetchList hgood hinj hnz harity harity2
        pairs.length 0 pairs leaves r.1 r.2.1 r.2.2 hr hF2base hpsgood hsub
    have hflat : leaves.flatten =
        B ++ 0x80 :: List.replicate (bs - B.length % bs - 1) 0 := by
      rw [hleaves]
      exact splitBlocks_flatten hb0
    have hmodlt : B.length % bs < bs := Nat.mod_lt _ hb0
    have hflatlen : (B ++ 0x80 :: List.replicate (bs - B.length % bs - 1) 0).length
        % bs = 0 := by
      simp only [List.length_append, List.length_cons, List.length_replicate]
      have hdm := Nat.div_add_mod B.length bs
      have h2 : ∀ k, k = bs * (B.length / bs + 1) → k % bs = 0 := by
        intro k hk
        rw [hk]
        exact Nat.mul_mod_right _ _
      apply h2
      rw [Nat.mul_add, Nat.mul_one]
      omega
    have hunpad : removePadding leaves.flatten bs = .ok B := by
      rw [hflat]
      exact removePadding_append_pad (by omega) hflatlen
    unfold DecodeRecursive
    simp only
    rcases Nat.eq_zero_or_pos r.2.1 with hL | hL
    · rw [if_neg (show ¬0 < r.2.1 by omega)]
      simp only [GoResult.bind]
      rw [hdec]
      exact hunpad
    · rcases foldPairs_root P bs hgood harity harity2 pairs.length 0 pairs
          r.1 r.2.1 r.2.2 hr (fun p hp => ⟨(hpsgood p hp).1, (hpsgood p hp).2.1⟩) with
        ⟨_, hL0, _⟩ | ⟨node, hnlen, hneq, hnmem⟩
      · omega
      · rw [if_pos hL]
        have hfetchroot : lookupFetch P fetchList
            (encryptInternalNode P node r.2.1).2.Reference =
            .ok (encryptInternalNode P node r.2.1).1 := by
          show lookupFetch P fetchList (P.hash _) = _
          refine lookupFetch_ok P fetchList _ ?_ hinj
          rw [hfetchList, List.map_append]
          exact List.mem_append_right _ hnmem
        have hderef : dereferenceNode P (lookupFetch P fetchList)
            r.2.2 r.2.1 bs = .ok node := by
          rw [hneq]
          exact dereferenceNode_encrypt_internal P _ node r.2.1 bs hnlen hfetchroot
        rw [hderef]
        simp only [GoResult.bind]
        rw [if_neg (by
          rw [hneq]
          show ¬P.hash node ≠ (encryptInternalNode P node r.2.1).2.Key
          exact fun hcontra => hcontra rfl)]
        simp only [GoResult.bind]
        rw [hdec]
        exact hunpad

theorem encNat_inj : ∀ l1 l2 : Bytes, encNat l1 = encNat l2 → l1 = l2 := by
  intro l1
  induction l1 with
  | nil =>
    intro l2 h
    cases l2 with
    | nil => rfl
    | cons b rest => simp [encNat] at h
  | cons b rest ih =>
    intro l2 h
    cases l2 with
    | nil => simp [encNat] at h
    | cons b2 rest2 =>
      simp only [encNat, Nat.add_right_cancel_iff] at h
      have h1 := congrArg Nat.unpair h
      rw [Nat.unpair_pair, Nat.unpair_pair] at h1
      obtain ⟨hb, hr⟩ := Prod.mk.injEq _ _ _ _ ▸ h1
      rw [show b = b2 from hb, ih rest2 (by rw [show encNat rest = encNat rest2 from hr])]

theorem injPrims_good : GoodPrims injPrims :=
  ⟨fun _ _ => by simp [injPrims, injHash], fun _ => by simp [injPrims, injHash]⟩

theorem injPrims_inj : ∀ b1 b2 : Bytes, injPrims.hash b1 = injPrims.hash b2 → b1 = b2 := by
  intro b1 b2 h
  simp only [injPrims, injHash, List.cons.injEq] at h
  exact encNat_inj b1 b2 (by omega)

theorem injPrims_nz : ∀ b : Bytes, injPrims.hash b ≠ zeroRef := by
  intro b h
  have : injHash b = 0 :: List.replicate 31 0 := h
  simp only [injHash, List.cons.injEq] at this
  omega

theorem C1_roundtrip_witness :
    ∃ blocksAnn cap, Encode injPrims [1, 2] [] 1024 = some (blocksAnn, cap) ∧
      DecodeRecursive injPrims (lookupFetch injPrims (blocksAnn.map Prod.fst))
        cap = .ok [1, 2] :=
  C1_roundtrip injPrims [1, 2] [] 1024 (Or.inl rfl) injPrims_good
    injPrims_inj injPrims_nz
